import Mathlib

/-!
Formal model of the pixstage repository: the dirty-region tracker
(src/dirty.rs), the axis-aligned rectangle type (src/rect.rs), the
scaling computation (src/scaling.rs) and the surface operations that the
claims refer to (src/argb1555.rs, src/indexed.rs).

Modelling conventions:
* Rust u32 values are modelled as Nat.  Plain u32 arithmetic is exact
  natural-number arithmetic except where the source itself can overflow on
  inputs that are representable as u32: the one such place is tiles_dim,
  whose addition width + tile_size - 1 is modelled with an explicit
  mod 2^32 (release-mode wrapping semantics; a debug build panics at the
  same inputs).  The explicitly saturating operations of the source
  (saturating_add, saturating_sub) are modelled by satAdd and Nat
  subtraction.
* f32 arithmetic in the scaling code is modelled as exact rational
  arithmetic; every concrete input evaluated in a theorem below uses only
  values on which f32 arithmetic is itself exact.
* Vec<u64> bit words are a List Nat, read with getD; Vec indexing that the
  source guards to be in range is List.set / List.getD.
* Fallible operations return Except / Option; &mut self methods return the
  new state (take_regions returns the new tracker state and the drained
  rectangle list).
-/

namespace Pixstage

/-- Largest u32 value, the cap of Rust's u32 saturating arithmetic. -/
def U32_MAX : Nat := 4294967295

/-- Modulus of wrapping u32 arithmetic. -/
def U32_MOD : Nat := 4294967296

/-- Rust u32::saturating_add. -/
def satAdd (a b : Nat) : Nat := min (a + b) U32_MAX

/-- Rect from src/rect.rs: axis-aligned integer rectangle. -/
structure Rect where
  x : Nat
  y : Nat
  width : Nat
  height : Nat
deriving DecidableEq, Repr

/-- Rect::new: none when a dimension is zero. -/
def Rect.new (x y width height : Nat) : Option Rect :=
  if width = 0 ∨ height = 0 then none
  else some ⟨x, y, width, height⟩

/-- Rect::right, saturating. -/
def Rect.right (r : Rect) : Nat := satAdd r.x r.width

/-- Rect::bottom, saturating. -/
def Rect.bottom (r : Rect) : Nat := satAdd r.y r.height

/-- Rect::union: smallest rectangle containing both, minimum 1x1. -/
def Rect.union (a b : Rect) : Rect :=
  let x0 := min a.x b.x
  let y0 := min a.y b.y
  let x1 := max a.right b.right
  let y1 := max a.bottom b.bottom
  ⟨x0, y0, max (x1 - x0) 1, max (y1 - y0) 1⟩

/-- Rect::clamp_to: intersect with the bounds rectangle, none if empty. -/
def Rect.clamp_to (r : Rect) (width height : Nat) : Option Rect :=
  if width = 0 ∨ height = 0 then none
  else if r.x ≥ width ∨ r.y ≥ height then none
  else
    let right := min r.right width
    let bottom := min r.bottom height
    Rect.new r.x r.y (right - r.x) (bottom - r.y)

/-- Pixel (px, py) lies inside rectangle r. -/
def Rect.containsPix (r : Rect) (px py : Nat) : Prop :=
  r.x ≤ px ∧ px < r.x + r.width ∧ r.y ≤ py ∧ py < r.y + r.height

instance (r : Rect) (px py : Nat) : Decidable (r.containsPix px py) := by
  unfold Rect.containsPix; infer_instance

/-- Two rectangles share no pixel. -/
def Rect.disjointPix (a b : Rect) : Prop :=
  ∀ px py, a.containsPix px py → b.containsPix px py → False

/-- Every pixel of a is a pixel of b. -/
def Rect.subPix (a b : Rect) : Prop :=
  ∀ px py, a.containsPix px py → b.containsPix px py

/-- tiles_dim from src/dirty.rs.  The u32 sums width + tile_size - 1 and
height + tile_size - 1 wrap modulo 2^32 (release semantics; debug panics),
which is observable for width or height close to u32::MAX. -/
def tiles_dim (width height tile_size : Nat) : Nat × Nat :=
  let tiles_x := ((width + tile_size - 1) % U32_MOD) / tile_size
  let tiles_y := ((height + tile_size - 1) % U32_MOD) / tile_size
  (max tiles_x 1, max tiles_y 1)

/-- DirtyTiles from src/dirty.rs: tile-granularity dirty bitmap. -/
structure DirtyTiles where
  tile_size : Nat
  tiles_x : Nat
  tiles_y : Nat
  bits : List Nat
  dirty_tiles : Nat
  full : Bool
  width : Nat
  height : Nat
deriving DecidableEq, Repr

/-- DirtyTiles::new. -/
def DirtyTiles.new (width height tile_size : Nat) : DirtyTiles :=
  let tile_size := max tile_size 1
  let td := tiles_dim width height tile_size
  let bit_len := td.1 * td.2
  ⟨tile_size, td.1, td.2, List.replicate ((bit_len + 63) / 64) 0, 0, false, width, height⟩

/-- DirtyTiles::resize. -/
def DirtyTiles.resize (s : DirtyTiles) (width height : Nat) : DirtyTiles :=
  let td := tiles_dim width height s.tile_size
  let bit_len := td.1 * td.2
  { s with width := width, height := height, tiles_x := td.1, tiles_y := td.2,
           bits := List.replicate ((bit_len + 63) / 64) 0,
           dirty_tiles := 0, full := true }

/-- DirtyTiles::mark_full. -/
def DirtyTiles.mark_full (s : DirtyTiles) : DirtyTiles := { s with full := true }

/-- DirtyTiles::is_tile_set. -/
def DirtyTiles.is_tile_set (s : DirtyTiles) (tx ty : Nat) : Bool :=
  let tile_index := ty * s.tiles_x + tx
  let word := tile_index / 64
  let bit := tile_index % 64
  (s.bits.getD word 0) &&& (1 <<< bit) != 0

/-- DirtyTiles::set_tile: set one tile bit, counting 0 -> 1 transitions. -/
def DirtyTiles.set_tile (s : DirtyTiles) (tx ty : Nat) : DirtyTiles :=
  if tx ≥ s.tiles_x ∨ ty ≥ s.tiles_y then s
  else
    let tile_index := ty * s.tiles_x + tx
    let word := tile_index / 64
    let bit := tile_index % 64
    let mask := 1 <<< bit
    if (s.bits.getD word 0) &&& mask = 0 then
      { s with bits := s.bits.set word ((s.bits.getD word 0) ||| mask),
               dirty_tiles := satAdd s.dirty_tiles 1 }
    else s

/-- DirtyTiles::mark_point. -/
def DirtyTiles.mark_point (s : DirtyTiles) (x y : Nat) : DirtyTiles :=
  if s.full = true ∨ x ≥ s.width ∨ y ≥ s.height then s
  else s.set_tile (x / s.tile_size) (y / s.tile_size)

/-- DirtyTiles::mark_rect: clamp, then set every covered tile (the two
nested for loops over ty in y0..=y1, tx in x0..=x1). -/
def DirtyTiles.mark_rect (s : DirtyTiles) (rect : Rect) : DirtyTiles :=
  if s.full = true then s
  else
    match rect.clamp_to s.width s.height with
    | none => s
    | some rect =>
      let tile := s.tile_size
      let x0 := rect.x / tile
      let y0 := rect.y / tile
      let x1 := (rect.x + rect.width - 1) / tile
      let y1 := (rect.y + rect.height - 1) / tile
      (List.range' y0 (y1 + 1 - y0)).foldl
        (fun s ty => (List.range' x0 (x1 + 1 - x0)).foldl
          (fun s tx => s.set_tile tx ty) s) s

/-- DirtyTiles::clear (private helper). -/
def DirtyTiles.clear (s : DirtyTiles) : DirtyTiles :=
  { s with bits := List.replicate s.bits.length 0, dirty_tiles := 0, full := false }

/-- Maximal runs of true in a list of bits: runsAux acc i bs scans bs
starting at absolute index i, acc being the start of the currently open
run.  Models the inner while loop of take_regions that extracts maximal
horizontal runs of set tiles; a run is returned as (start, end) in tile
units. -/
def runsAux : Option Nat → Nat → List Bool → List (Nat × Nat)
  | none, _, [] => []
  | some start, i, [] => [(start, i)]
  | none, i, b :: bs => if b then runsAux (some i) (i + 1) bs else runsAux none (i + 1) bs
  | some start, i, b :: bs =>
    if b then runsAux (some start) (i + 1) bs
    else (start, i) :: runsAux none (i + 1) bs

/-- The bits of one tile row, left to right. -/
def DirtyTiles.rowBits (s : DirtyTiles) (ty : Nat) : List Bool :=
  (List.range s.tiles_x).map (fun tx => s.is_tile_set tx ty)

/-- Runs of one row converted to pixel (x, width) pairs, as pushed into
the runs vector of take_regions. -/
def DirtyTiles.rowRunsPix (s : DirtyTiles) (ty : Nat) : List (Nat × Nat) :=
  (runsAux none 0 (s.rowBits ty)).map
    (fun r => (r.1 * s.tile_size, (r.2 - r.1) * s.tile_size))

/-- Stable insertion of a rectangle into a list sorted by x (helper of the
stable sort modelling Vec::sort_by_key). -/
def insertByX (r : Rect) : List Rect → List Rect
  | [] => [r]
  | p :: rest => if r.x ≤ p.x then r :: p :: rest else p :: insertByX r rest

/-- Stable sort by the x field.  Rust's sort_by_key is a stable sort, and a
stable sort is a unique function of its input, so insertion sort computes
exactly the same list. -/
def sortByX : List Rect → List Rect
  | [] => []
  | r :: rest => insertByX r (sortByX rest)

/-- One row of the vertical-merge pass of take_regions: walk the runs of
the current row against the (sorted) open rectangles of the previous row.
Returns (flushed, next_prev): rectangles pushed to the output this row and
the open rectangles carried to the next row.  The takeWhile/dropWhile
split is the while loop advancing prev_idx past rectangles with x < run.x;
a previous rectangle with identical x and width whose bottom edge equals
this row's y is extended by one tile (height saturating), otherwise a
fresh one-tile-high rectangle is opened. -/
def mergeRow (T y : Nat) : List Rect → List (Nat × Nat) → List Rect × List Rect
  | prev, [] => (prev, [])
  | prev, (x, w) :: rest =>
    let flushed := prev.takeWhile (fun r => r.x < x)
    let rem := prev.dropWhile (fun r => r.x < x)
    match rem with
    | p :: rem' =>
      if p.x = x ∧ p.width = w ∧ p.y + p.height = y then
        let res := mergeRow T y rem' rest
        (flushed ++ res.1, ⟨p.x, p.y, p.width, satAdd p.height T⟩ :: res.2)
      else
        let res := mergeRow T y rem rest
        (flushed ++ res.1, ⟨x, y, w, T⟩ :: res.2)
    | [] =>
      let res := mergeRow T y ([] : List Rect) rest
      (flushed ++ res.1, ⟨x, y, w, T⟩ :: res.2)

/-- The row loop of take_regions over rows 0..n, accumulating
(out, prev). -/
def DirtyTiles.scanRows (s : DirtyTiles) : Nat → List Rect × List Rect
  | 0 => ([], [])
  | j + 1 =>
    let acc := s.scanRows j
    let y := j * s.tile_size
    let runs := s.rowRunsPix j
    let sorted := sortByX acc.2
    let step := mergeRow s.tile_size y sorted runs
    (acc.1 ++ step.1, step.2)

/-- Clamp one scanned rectangle to the buffer, degrading to zero size when
it lies fully outside (the iter_mut loop of take_regions). -/
def DirtyTiles.clampStep (s : DirtyTiles) (r : Rect) : Rect :=
  match r.clamp_to s.width s.height with
  | some c => c
  | none => { r with width := 0, height := 0 }

/-- The rectangle list produced by the scan of take_regions after the
clamp-and-retain steps, before cap enforcement. -/
def DirtyTiles.drainFragments (s : DirtyTiles) : List Rect :=
  let acc := s.scanRows s.tiles_y
  ((acc.1 ++ acc.2).map s.clampStep).filter
    (fun r => decide (0 < r.width) && decide (0 < r.height))

/-- DirtyTiles::take_regions: returns the new tracker state and the
drained rectangles. -/
def DirtyTiles.take_regions (s : DirtyTiles) (max_regions : Nat) : DirtyTiles × List Rect :=
  if s.width = 0 ∨ s.height = 0 then (s.clear, [])
  else if s.full = true then (s.clear, [⟨0, 0, s.width, s.height⟩])
  else if s.dirty_tiles = 0 then (s, [])
  else
    let out := s.drainFragments
    let out :=
      if max_regions < out.length then
        match out with
        | [] => []
        | r0 :: rest => [rest.foldl Rect.union r0]
      else out
    (s.clear, out)

/-- One marking call on the tracker, for stating claims about arbitrary
sequences of mark operations. -/
inductive MarkOp where
  | point (x y : Nat)
  | rect (r : Rect)
  | full
deriving DecidableEq, Repr

/-- Apply one mark operation. -/
def applyMark (s : DirtyTiles) : MarkOp → DirtyTiles
  | .point x y => s.mark_point x y
  | .rect r => s.mark_rect r
  | .full => s.mark_full

/-- Apply a sequence of mark operations in order. -/
def applyMarks (s : DirtyTiles) (ops : List MarkOp) : DirtyTiles :=
  ops.foldl applyMark s

/-- Pixels touched by one mark operation: mark_point marks its single
pixel, mark_rect every pixel of its rectangle, mark_full every pixel. -/
def opMarks (op : MarkOp) (px py : Nat) : Prop :=
  match op with
  | .point x y => px = x ∧ py = y
  | .rect r => r.containsPix px py
  | .full => True

instance (op : MarkOp) (px py : Nat) : Decidable (opMarks op px py) := by
  unfold opMarks
  cases op <;> infer_instance

/-- Pixel (px, py) is marked by one of the operations of the sequence. -/
def pixelMarked (ops : List MarkOp) (px py : Nat) : Prop :=
  ∃ op ∈ ops, opMarks op px py

instance (ops : List MarkOp) (px py : Nat) : Decidable (pixelMarked ops px py) :=
  List.decidableBEx _ ops

/-- Well-formedness of a tracker state: the invariants every tracker
reachable in the program satisfies (fields are u32-bounded, the tile grid
matches the buffer dimensions as computed by tiles_dim, the bit vector has
the allocated length, and a zero dirty counter means no tile bit is set). -/
def DirtyTiles.WF (s : DirtyTiles) : Prop :=
  0 < s.tile_size ∧ s.tile_size ≤ U32_MAX ∧
  s.width ≤ U32_MAX ∧ s.height ≤ U32_MAX ∧
  (s.tiles_x, s.tiles_y) = tiles_dim s.width s.height s.tile_size ∧
  s.bits.length = (s.tiles_x * s.tiles_y + 63) / 64 ∧
  (s.dirty_tiles = 0 → ∀ tx ty, tx < s.tiles_x → ty < s.tiles_y →
    s.is_tile_set tx ty = false)

/-- ScalingMode from src/scaling.rs. -/
inductive ScalingMode where
  | PixelPerfect
  | Fill
deriving DecidableEq, Repr

/-- ScalingState from src/scaling.rs, with f32 fields modelled as exact
rationals. -/
structure ScalingState where
  ndc_scale : ℚ × ℚ
  clip_rect : Rect
  buffer_to_surface_scale : ℚ
deriving DecidableEq, Repr

/-- f32::max as exact rational max (executable if-form). -/
def qmax (a b : ℚ) : ℚ := if a ≤ b then b else a

/-- f32::min as exact rational min (executable if-form). -/
def qmin (a b : ℚ) : ℚ := if a ≤ b then a else b

/-- Rust `as u32` cast of a nonnegative float: truncate toward zero and
saturate at u32::MAX. -/
def f32_to_u32 (q : ℚ) : Nat := min (Int.toNat ⌊q⌋) U32_MAX

/-- compute_scaling from src/scaling.rs, over exact rationals.  floor
models f32::floor; the final casts to u32 model `as u32`. -/
def compute_scaling (buffer_size surface_size : Nat × Nat) (mode : ScalingMode) :
    ScalingState :=
  let buffer_width_f : ℚ := buffer_size.1
  let buffer_height_f : ℚ := buffer_size.2
  let surface_width_f : ℚ := surface_size.1
  let surface_height_f : ℚ := surface_size.2
  let swh : ℚ × ℚ × ℚ :=
    match mode with
    | .PixelPerfect =>
      let width_ratio := qmax (surface_width_f / buffer_width_f) 1
      let height_ratio := qmax (surface_height_f / buffer_height_f) 1
      let scale := qmax ((⌊qmin width_ratio height_ratio⌋ : ℤ) : ℚ) 1
      (buffer_width_f * scale, buffer_height_f * scale, scale)
    | .Fill =>
      let width_ratio := surface_width_f / buffer_width_f
      let height_ratio := surface_height_f / buffer_height_f
      let scale := qmin width_ratio height_ratio
      (buffer_width_f * scale, buffer_height_f * scale, scale)
  let scaled_width := swh.1
  let scaled_height := swh.2.1
  let buffer_to_surface_scale := swh.2.2
  let clip_width := qmax (qmin scaled_width surface_width_f) 1
  let clip_height := qmax (qmin scaled_height surface_height_f) 1
  let clip_x := f32_to_u32 (qmax ((surface_width_f - clip_width) / 2) 0)
  let clip_y := f32_to_u32 (qmax ((surface_height_f - clip_height) / 2) 0)
  { ndc_scale := (scaled_width / qmax surface_width_f 1,
                  scaled_height / qmax surface_height_f 1),
    clip_rect := ⟨clip_x, clip_y, f32_to_u32 clip_width, f32_to_u32 clip_height⟩,
    buffer_to_surface_scale := buffer_to_surface_scale }

/-- f32::MIN_POSITIVE, the guard value of window_pos_to_pixel. -/
def f32_min_positive : ℚ := 1 / 2 ^ 126

/-- Vec::resize: truncate to n elements, or extend with copies of v.  The
existing prefix is preserved. -/
def vecResize (l : List Nat) (n : Nat) (v : Nat) : List Nat :=
  if n ≤ l.length then l.take n else l ++ List.replicate (n - l.length) v

/-- Error kinds of the crate (the variant the modelled operations can
produce). -/
inductive PixError where
  | InvalidBufferSize (width height : Nat)
deriving DecidableEq, Repr

/-- PixstageArgb1555 (src/argb1555.rs), restricted to the CPU-visible
state the claims are about: buffer dimensions, pixel buffer, dirty
tracker, surface dimensions, scaling mode and derived scaling state.
GPU objects (device, queue, textures, bind groups) live outside the
model; the GPU calls of the source are external effects. -/
structure PixstageArgb1555 where
  surface_width : Nat
  surface_height : Nat
  scaling_mode : ScalingMode
  scaling_state : ScalingState
  width : Nat
  height : Nat
  pixels : List Nat
  dirty : DirtyTiles
deriving DecidableEq, Repr

/-- recompute_scaling of PixstageArgb1555 (the write_buffer GPU call is an
external effect). -/
def PixstageArgb1555.recompute_scaling (s : PixstageArgb1555) : PixstageArgb1555 :=
  let st := compute_scaling (s.width, s.height) (s.surface_width, s.surface_height)
    s.scaling_mode
  { s with scaling_state := st }

/-- PixstageArgb1555::resize_buffer.  Note the pixel buffer is resized
with Vec::resize(width * height, 0), and the dirty tracker is resized and
then marked full. -/
def PixstageArgb1555.resize_buffer (s : PixstageArgb1555) (width height : Nat) :
    Except PixError PixstageArgb1555 :=
  if width = 0 ∨ height = 0 then .error (.InvalidBufferSize width height)
  else
    let s := { s with width := width, height := height,
                      pixels := vecResize s.pixels (width * height) 0,
                      dirty := s.dirty.resize width height }
    let s := s.recompute_scaling
    .ok { s with dirty := s.dirty.mark_full }

/-- PixstageArgb1555::set_pixel: bounds-checked write, out of range is a
silent no-op. -/
def PixstageArgb1555.set_pixel (s : PixstageArgb1555) (x y value : Nat) :
    PixstageArgb1555 :=
  if x ≥ s.width ∨ y ≥ s.height then s
  else
    let offset := y * s.width + x
    { s with pixels := s.pixels.set offset value,
             dirty := s.dirty.mark_point x y }

/-- PixstageArgb1555::window_pos_to_pixel over exact rationals: floor the
physical position, reject outside the clip rectangle, invert the scale
(guarded below by f32::MIN_POSITIVE), add the centering crop offset,
floor, and reject outside the buffer. -/
def PixstageArgb1555.window_pos_to_pixel (s : PixstageArgb1555)
    (physical_position : ℚ × ℚ) : Except (Int × Int) (Nat × Nat) :=
  let clip := s.scaling_state.clip_rect
  let x : Int := ⌊physical_position.1⌋
  let y : Int := ⌊physical_position.2⌋
  let clip_x : Int := clip.x
  let clip_y : Int := clip.y
  if x < clip_x ∨ y < clip_y ∨ x ≥ clip_x + clip.width ∨ y ≥ clip_y + clip.height then
    .error (x, y)
  else
    let local_x : ℚ := ((x - clip_x : Int) : ℚ)
    let local_y : ℚ := ((y - clip_y : Int) : ℚ)
    let scale := qmax s.scaling_state.buffer_to_surface_scale f32_min_positive
    let visible_buffer_width : ℚ := (clip.width : ℚ) / scale
    let visible_buffer_height : ℚ := (clip.height : ℚ) / scale
    let crop_x := ((s.width : ℚ) - visible_buffer_width) / 2
    let crop_y := ((s.height : ℚ) - visible_buffer_height) / 2
    let pixel_x : Int := ⌊crop_x + local_x / scale⌋
    let pixel_y : Int := ⌊crop_y + local_y / scale⌋
    if pixel_x < 0 ∨ pixel_y < 0 ∨ pixel_x ≥ (s.width : Int) ∨ pixel_y ≥ (s.height : Int) then
      .error (pixel_x, pixel_y)
    else
      .ok (pixel_x.toNat, pixel_y.toNat)

/-- PixstageIndexed (src/indexed.rs), restricted to the CPU-visible state
the claims are about.  The 256-entry palette and its dirty flag are
carried but not otherwise modelled. -/
structure PixstageIndexed where
  surface_width : Nat
  surface_height : Nat
  scaling_mode : ScalingMode
  scaling_state : ScalingState
  width : Nat
  height : Nat
  indices : List Nat
  palette_dirty : Bool
  dirty : DirtyTiles
deriving DecidableEq, Repr

/-- recompute_scaling of PixstageIndexed. -/
def PixstageIndexed.recompute_scaling (s : PixstageIndexed) : PixstageIndexed :=
  let st := compute_scaling (s.width, s.height) (s.surface_width, s.surface_height)
    s.scaling_mode
  { s with scaling_state := st }

/-- PixstageIndexed::resize_buffer: same shape as the ARGB1555 variant,
with the index buffer resized by Vec::resize(width * height, 0). -/
def PixstageIndexed.resize_buffer (s : PixstageIndexed) (width height : Nat) :
    Except PixError PixstageIndexed :=
  if width = 0 ∨ height = 0 then .error (.InvalidBufferSize width height)
  else
    let s := { s with width := width, height := height,
                      indices := vecResize s.indices (width * height) 0,
                      dirty := s.dirty.resize width height }
    let s := s.recompute_scaling
    .ok { s with dirty := s.dirty.mark_full }

/-- PixstageIndexed::set_index: bounds-checked write, out of range is a
silent no-op. -/
def PixstageIndexed.set_index (s : PixstageIndexed) (x y index : Nat) :
    PixstageIndexed :=
  if x ≥ s.width ∨ y ≥ s.height then s
  else
    let offset := y * s.width + x
    { s with indices := s.indices.set offset index,
             dirty := s.dirty.mark_point x y }

/-- PixstageIndexed::upload_dirty_regions: drains the tracker with the
fixed cap of 64 regions per frame and uploads each region (the
write_texture GPU calls are external effects; the returned list is the
sequence of uploaded regions). -/
def PixstageIndexed.upload_dirty_regions (s : PixstageIndexed) :
    PixstageIndexed × List Rect :=
  let res := s.dirty.take_regions 64
  ({ s with dirty := res.1 }, res.2)

/-! Derived definitions used by the correctness development: preserved
geometry, invariants of the marking and scanning loops, the cap union,
and concrete sample surfaces. -/

/-- The fields of a tracker that no mark operation changes. -/
def geom (s : DirtyTiles) : Nat × Nat × Nat × Nat × Nat × Nat :=
  (s.tile_size, s.tiles_x, s.tiles_y, s.width, s.height, s.bits.length)

/-- Geometric context preserved by mark operations, relating the tile grid
to the buffer dimensions. -/
def MarkCtx (s : DirtyTiles) : Prop :=
  s.bits.length = (s.tiles_x * s.tiles_y + 63) / 64 ∧ 0 < s.tile_size ∧
  s.width ≤ s.tiles_x * s.tile_size ∧ s.height ≤ s.tiles_y * s.tile_size ∧
  s.width ≤ U32_MAX ∧ s.height ≤ U32_MAX

/-- Specification of the next-prev list built by mergeRow: it is aligned
with the run list; each entry either a fresh one-tile-high rectangle of
its run, or the extension of a previous-row rectangle with the same span
whose bottom edge meets this row. -/
def NpRel (prev : List Rect) (T y : Nat) (ru : Nat × Nat) (n : Rect) : Prop :=
  n.x = ru.1 ∧ n.width = ru.2 ∧
    ((n.y = y ∧ n.height = T) ∨
      (∃ p ∈ prev, p.x = ru.1 ∧ p.width = ru.2 ∧ p.y + p.height = y ∧
        n = ⟨p.x, p.y, p.width, satAdd p.height T⟩))

/-- Loop invariant of the row scan of take_regions after processing rows
0..j: shape of the still-open rectangles, disjointness of everything
produced so far, and coverage of every set tile of the processed rows. -/
def ScanInv (s : DirtyTiles) (j : Nat) (acc : List Rect × List Rect) : Prop :=
  (∀ r ∈ acc.2, 0 < r.width ∧ r.height ≤ U32_MAX ∧
    (r.y + r.height = j * s.tile_size ∨ U32_MAX < j * s.tile_size)) ∧
  acc.2.Pairwise (fun a b => a.x + a.width ≤ b.x) ∧
  (∀ r ∈ acc.1, r.y + r.height ≤ j * s.tile_size) ∧
  (acc.1 ++ acc.2).Pairwise Rect.disjointPix ∧
  (∀ px py, px / s.tile_size < s.tiles_x → py < j * s.tile_size → py < s.height →
    s.is_tile_set (px / s.tile_size) (py / s.tile_size) = true →
    ∃ r ∈ acc.1 ++ acc.2, r.containsPix px py)

/-- Rectangle lies inside the w x h buffer and is nondegenerate. -/
def Rect.inBounds (r : Rect) (w h : Nat) : Prop :=
  r.x + r.width ≤ w ∧ r.y + r.height ≤ h ∧ 0 < r.width ∧ 0 < r.height

/-- The bounding union out[0] ∪ out[1] ∪ ... that cap enforcement
collapses the fragment list into. -/
def DirtyTiles.mergedFrag (s : DirtyTiles) : Rect :=
  match s.drainFragments with
  | [] => ⟨0, 0, 0, 0⟩
  | r0 :: rest => rest.foldl Rect.union r0

/-- A surface in the state of the scaling round-trip property: buffer
256 x 240 presented PixelPerfect on a 768 x 720 surface. -/
def sampleArgb : PixstageArgb1555 :=
  { surface_width := 768, surface_height := 720, scaling_mode := .PixelPerfect,
    scaling_state := compute_scaling (256, 240) (768, 720) .PixelPerfect,
    width := 256, height := 240, pixels := List.replicate (256 * 240) 0,
    dirty := DirtyTiles.new 256 240 32 }

/-- A 1 x 1 ARGB1555 surface holding the single pixel value 5. -/
def smallArgb : PixstageArgb1555 :=
  { surface_width := 8, surface_height := 8, scaling_mode := .Fill,
    scaling_state := compute_scaling (1, 1) (8, 8) .Fill,
    width := 1, height := 1, pixels := [5],
    dirty := DirtyTiles.new 1 1 32 }

/-- A 1 x 1 indexed surface. -/
def smallIndexed : PixstageIndexed :=
  { surface_width := 8, surface_height := 8, scaling_mode := .Fill,
    scaling_state := compute_scaling (1, 1) (8, 8) .Fill,
    width := 1, height := 1, indices := [0], palette_dirty := false,
    dirty := DirtyTiles.new 1 1 32 }

/-! Arithmetic helper lemmas. -/

theorem satAdd_of_le {a b : Nat} (h : a + b ≤ U32_MAX) : satAdd a b = a + b := by
  simp only [satAdd]
  omega

theorem satAdd_le (a b : Nat) : satAdd a b ≤ a + b := by
  simp only [satAdd]
  omega

theorem le_satAdd_right {a b : Nat} (hb : b ≤ U32_MAX) : b ≤ satAdd a b := by
  simp only [satAdd]
  omega

theorem le_satAdd_left {a b : Nat} (ha : a ≤ U32_MAX) : a ≤ satAdd a b := by
  simp only [satAdd]
  omega

theorem ceil_mul_ge (w T : Nat) (hT : 0 < T) : w ≤ ((w + T - 1) / T) * T := by
  have h1 : T * ((w + T - 1) / T) + (w + T - 1) % T = w + T - 1 :=
    Nat.div_add_mod (w + T - 1) T
  have h2 : (w + T - 1) % T < T := Nat.mod_lt _ hT
  rw [Nat.mul_comm]
  omega

theorem ceil_pred_mul_lt (w T : Nat) (hT : 0 < T) (hw : 0 < w) :
    (((w + T - 1) / T) - 1) * T < w := by
  have h1 : T * ((w + T - 1) / T) + (w + T - 1) % T = w + T - 1 :=
    Nat.div_add_mod (w + T - 1) T
  have h2 : (w + T - 1) % T < T := Nat.mod_lt _ hT
  have h3 : (((w + T - 1) / T) - 1) * T + T = ((w + T - 1) / T) * T ∨
      (w + T - 1) / T = 0 := by
    rcases Nat.eq_zero_or_pos ((w + T - 1) / T) with h | h
    · exact Or.inr h
    · left
      have : ((w + T - 1) / T) - 1 + 1 = (w + T - 1) / T := by omega
      calc (((w + T - 1) / T) - 1) * T + T = ((((w + T - 1) / T) - 1) + 1) * T := by ring
        _ = ((w + T - 1) / T) * T := by rw [this]
  rcases h3 with h3 | h3
  · rw [Nat.mul_comm] at h1
    omega
  · simp [h3, hw]

theorem div_lt_of_lt_mul_ceil {px w T X : Nat} (hpx : px < w)
    (hX : w ≤ X * T) : px / T < X := by
  by_contra hc
  push_neg at hc
  have h1 : X * T ≤ (px / T) * T := Nat.mul_le_mul_right T hc
  have h2 : (px / T) * T ≤ px := Nat.div_mul_le_self px T
  omega

theorem div_mul_le (py T : Nat) : (py / T) * T ≤ py := Nat.div_mul_le_self py T

theorem lt_div_succ_mul (py T : Nat) (hT : 0 < T) : py < (py / T + 1) * T := by
  have h1 : T * (py / T) + py % T = py := Nat.div_add_mod py T
  have h2 : py % T < T := Nat.mod_lt _ hT
  have : (py / T + 1) * T = T * (py / T) + T := by ring
  omega

theorem div_eq_iff_bounds {py j T : Nat} (hT : 0 < T) :
    py / T = j ↔ j * T ≤ py ∧ py < (j + 1) * T := by
  constructor
  · rintro rfl
    exact ⟨div_mul_le py T, lt_div_succ_mul py T hT⟩
  · rintro ⟨h1, h2⟩
    exact Nat.div_eq_of_lt_le h1 h2

/-! List helper lemmas. -/

theorem getD_set_self {l : List Nat} {i : Nat} (v d : Nat) (h : i < l.length) :
    (l.set i v).getD i d = v := by
  simp [List.getD_eq_getElem?_getD, List.getElem?_set_self', h]

theorem getD_set_ne {l : List Nat} {i j : Nat} (v d : Nat) (h : i ≠ j) :
    (l.set i v).getD j d = l.getD j d := by
  simp [List.getD_eq_getElem?_getD, List.getElem?_set_ne h]

theorem getD_replicate_zero (n i d : Nat) :
    (List.replicate n (0 : Nat)).getD i d = if i < n then 0 else d := by
  simp only [List.getD_eq_getElem?_getD, List.getElem?_replicate]
  split <;> rfl

/-! Tile index arithmetic: the packed index ty * tiles_x + tx determines
(tx, ty) when tx is within the row. -/

theorem tileIndex_inj {X tx ty tx' ty' : Nat} (htx : tx < X) (htx' : tx' < X)
    (h : ty * X + tx = ty' * X + tx') : tx = tx' ∧ ty = ty' := by
  have hX : 0 < X := by omega
  have h1 : (X * ty + tx) % X = tx % X := Nat.mul_add_mod X ty tx
  have h2 : (X * ty' + tx') % X = tx' % X := Nat.mul_add_mod X ty' tx'
  have h3 : (X * ty + tx) / X = ty + tx / X := Nat.mul_add_div hX ty tx
  have h4 : (X * ty' + tx') / X = ty' + tx' / X := Nat.mul_add_div hX ty' tx'
  have e : X * ty + tx = X * ty' + tx' := by
    rw [Nat.mul_comm X ty, Nat.mul_comm X ty']
    exact h
  constructor
  · have := congrArg (· % X) e
    simp only at this
    rw [h1, h2, Nat.mod_eq_of_lt htx, Nat.mod_eq_of_lt htx'] at this
    exact this
  · have := congrArg (· / X) e
    simp only at this
    rw [h3, h4, Nat.div_eq_of_lt htx, Nat.div_eq_of_lt htx'] at this
    omega

/-! Bit-level lemmas about is_tile_set and set_tile. -/

theorem and_shift_ne_zero (v b : Nat) : (v &&& (1 <<< b) != 0) = v.testBit b := by
  rw [Nat.one_shiftLeft, Nat.and_two_pow]
  have h2 : (0 : Nat) < 2 ^ b := Nat.pos_pow_of_pos b (by omega)
  cases h : v.testBit b
  · simp
  · simp only [Bool.toNat_true, Nat.one_mul, bne_iff_ne, ne_eq]
    omega

theorem testBit_lor_pow (v b b' : Nat) :
    (v ||| 2 ^ b).testBit b' = (v.testBit b' || decide (b = b')) := by
  rw [Nat.testBit_lor]
  congr 1
  by_cases h : b = b'
  · subst h
    simp [Nat.testBit_two_pow_self]
  · simp [Nat.testBit_two_pow_of_ne h, h]

theorem is_tile_set_eq_testBit (s : DirtyTiles) (tx ty : Nat) :
    s.is_tile_set tx ty =
      (s.bits.getD ((ty * s.tiles_x + tx) / 64) 0).testBit ((ty * s.tiles_x + tx) % 64) := by
  simp only [DirtyTiles.is_tile_set]
  exact and_shift_ne_zero _ _

theorem word_lt_len {X Y i L : Nat} (hi : i < X * Y) (hL : L = (X * Y + 63) / 64) :
    i / 64 < L := by
  have h1 : (i / 64 + 1) * 64 ≤ X * Y + 63 := by
    have h2 : (i / 64) * 64 ≤ i := Nat.div_mul_le_self i 64
    omega
  have h3 : i / 64 + 1 ≤ (X * Y + 63) / 64 := (Nat.le_div_iff_mul_le (by omega)).mpr h1
  omega

/-- Effect of set_tile on is_tile_set, for read positions inside the tile
grid: the target bit (when in range) becomes set, all others are
unchanged. -/
theorem set_tile_is_tile_set (s : DirtyTiles) (tx ty tx' ty' : Nat)
    (hlen : s.bits.length = (s.tiles_x * s.tiles_y + 63) / 64)
    (htx' : tx' < s.tiles_x) (hty' : ty' < s.tiles_y) :
    (s.set_tile tx ty).is_tile_set tx' ty' =
      (s.is_tile_set tx' ty' || (decide (tx = tx') && decide (ty = ty'))) := by
  unfold DirtyTiles.set_tile
  by_cases hg : tx ≥ s.tiles_x ∨ ty ≥ s.tiles_y
  · simp only [hg, if_true]
    have : (decide (tx = tx') && decide (ty = ty')) = false := by
      rcases hg with hg | hg
      · have : tx ≠ tx' := by omega
        simp [this]
      · have : ty ≠ ty' := by omega
        simp [this]
    rw [this, Bool.or_false]
  · simp only [hg, if_false]
    push_neg at hg
    have htx : tx < s.tiles_x := hg.1
    have hty : ty < s.tiles_y := hg.2
    set i := ty * s.tiles_x + tx with hi
    set i' := ty' * s.tiles_x + tx' with hi'
    have hilt : i < s.tiles_x * s.tiles_y := by
      have h1 : ty * s.tiles_x + tx < (ty + 1) * s.tiles_x := by
        have : (ty + 1) * s.tiles_x = ty * s.tiles_x + s.tiles_x := by ring
        omega
      have h2 : (ty + 1) * s.tiles_x ≤ s.tiles_y * s.tiles_x := Nat.mul_le_mul_right _ (by omega)
      calc i < (ty + 1) * s.tiles_x := h1
        _ ≤ s.tiles_y * s.tiles_x := h2
        _ = s.tiles_x * s.tiles_y := Nat.mul_comm _ _
    have hword : i / 64 < s.bits.length := word_lt_len hilt hlen
    have hiff : (i = i') ↔ (tx = tx' ∧ ty = ty') := by
      constructor
      · intro h
        exact tileIndex_inj htx htx' h
      · rintro ⟨h1, h2⟩
        rw [hi, hi', h1, h2]
    by_cases hset : (s.bits.getD (i / 64) 0) &&& (1 <<< (i % 64)) = 0
    · simp only [hset, if_true]
      rw [is_tile_set_eq_testBit, is_tile_set_eq_testBit]
      simp only
      by_cases hw : i / 64 = i' / 64
      · rw [← hw, getD_set_self _ _ hword, Nat.one_shiftLeft, testBit_lor_pow]
        congr 1
        by_cases hbit : i % 64 = i' % 64
        · have : i = i' := by
            have d1 : 64 * (i / 64) + i % 64 = i := Nat.div_add_mod i 64
            have d2 : 64 * (i' / 64) + i' % 64 = i' := Nat.div_add_mod i' 64
            omega
          simp [hbit, hiff.mp this]
        · have : ¬ (tx = tx' ∧ ty = ty') := by
            intro hc
            exact hbit (by rw [hiff.mpr hc])
          have h2 : (decide (tx = tx') && decide (ty = ty')) = false := by
            rcases Decidable.not_and_iff_or_not.mp this with h | h <;> simp [h]
          simp [hbit, h2]
      · rw [getD_set_ne _ _ hw]
        have : ¬ (tx = tx' ∧ ty = ty') := by
          intro hc
          exact hw (by rw [hiff.mpr hc])
        have h2 : (decide (tx = tx') && decide (ty = ty')) = false := by
          rcases Decidable.not_and_iff_or_not.mp this with h | h <;> simp [h]
        simp [h2]
    · simp only [hset, if_false]
      by_cases heq : tx = tx' ∧ ty = ty'
      · have hii : ty' * s.tiles_x + tx' = i := by
          rw [← hi']
          exact (hiff.mpr heq).symm
        have hsetb : s.is_tile_set tx' ty' = true := by
          simp only [DirtyTiles.is_tile_set, hii, bne_iff_ne, ne_eq]
          exact hset
        simp [hsetb]
      · have h2 : (decide (tx = tx') && decide (ty = ty')) = false := by
          rcases Decidable.not_and_iff_or_not.mp heq with h | h <;> simp [h]
        simp [h2]

/-! Mark operations: geometry preservation, monotonicity of tile bits,
and the guarantee that a marked in-bounds pixel's tile bit is set. -/

theorem geom_set_tile (s : DirtyTiles) (tx ty : Nat) : geom (s.set_tile tx ty) = geom s := by
  unfold DirtyTiles.set_tile
  split
  · rfl
  · dsimp only
    split
    · simp [geom]
    · rfl

theorem geom_foldl_inner (l : List Nat) (ty : Nat) :
    ∀ s : DirtyTiles, geom (l.foldl (fun s tx => s.set_tile tx ty) s) = geom s := by
  induction l with
  | nil => intro s; rfl
  | cons a rest ih =>
    intro s
    rw [List.foldl_cons, ih, geom_set_tile]

theorem geom_foldl_rows (lx : List Nat) (ly : List Nat) :
    ∀ s : DirtyTiles,
      geom (ly.foldl (fun s ty => lx.foldl (fun s tx => s.set_tile tx ty) s) s) = geom s := by
  induction ly with
  | nil => intro s; rfl
  | cons a rest ih =>
    intro s
    rw [List.foldl_cons, ih, geom_foldl_inner]

theorem geom_applyMark (s : DirtyTiles) (op : MarkOp) : geom (applyMark s op) = geom s := by
  cases op with
  | point x y =>
    simp only [applyMark, DirtyTiles.mark_point]
    split
    · rfl
    · exact geom_set_tile s _ _
  | rect r =>
    simp only [applyMark, DirtyTiles.mark_rect]
    split
    · rfl
    · split
      · rfl
      · exact geom_foldl_rows _ _ s
  | full => rfl

theorem geom_applyMarks (ops : List MarkOp) :
    ∀ s : DirtyTiles, geom (applyMarks s ops) = geom s := by
  induction ops with
  | nil => intro s; rfl
  | cons op rest ih =>
    intro s
    simp only [applyMarks, List.foldl_cons]
    rw [show List.foldl applyMark (applyMark s op) rest = applyMarks (applyMark s op) rest from rfl]
    rw [ih, geom_applyMark]

theorem applyMark_of_full {s : DirtyTiles} (op : MarkOp) (h : s.full = true) :
    applyMark s op = s := by
  cases op with
  | point x y => simp [applyMark, DirtyTiles.mark_point, h]
  | rect r => simp [applyMark, DirtyTiles.mark_rect, h]
  | full =>
    show s.mark_full = s
    unfold DirtyTiles.mark_full
    cases s
    simp_all

theorem applyMarks_of_full {s : DirtyTiles} (ops : List MarkOp) (h : s.full = true) :
    applyMarks s ops = s := by
  induction ops with
  | nil => rfl
  | cons op rest ih =>
    simp only [applyMarks, List.foldl_cons]
    rw [applyMark_of_full op h]
    exact ih

theorem set_tile_mono {s : DirtyTiles} {a b : Nat} (tx ty : Nat)
    (hlen : s.bits.length = (s.tiles_x * s.tiles_y + 63) / 64)
    (ha : a < s.tiles_x) (hb : b < s.tiles_y)
    (h : s.is_tile_set a b = true) : (s.set_tile tx ty).is_tile_set a b = true := by
  rw [set_tile_is_tile_set s tx ty a b hlen ha hb, h]
  rfl

theorem set_tile_target {s : DirtyTiles} (tx ty : Nat)
    (hlen : s.bits.length = (s.tiles_x * s.tiles_y + 63) / 64)
    (htx : tx < s.tiles_x) (hty : ty < s.tiles_y) :
    (s.set_tile tx ty).is_tile_set tx ty = true := by
  rw [set_tile_is_tile_set s tx ty tx ty hlen htx hty]
  simp

theorem foldl_inner_mono (l : List Nat) (ty : Nat) {a b : Nat} :
    ∀ s : DirtyTiles, s.bits.length = (s.tiles_x * s.tiles_y + 63) / 64 →
      a < s.tiles_x → b < s.tiles_y → s.is_tile_set a b = true →
      (l.foldl (fun s tx => s.set_tile tx ty) s).is_tile_set a b = true := by
  induction l with
  | nil => intro s _ _ _ h; exact h
  | cons c rest ih =>
    intro s hlen ha hb h
    rw [List.foldl_cons]
    have hg := geom_set_tile s c ty
    simp only [geom, Prod.mk.injEq] at hg
    exact ih (s.set_tile c ty) (by rw [hg.2.2.2.2.2, hg.2.1, hg.2.2.1]; exact hlen)
      (by rw [hg.2.1]; exact ha) (by rw [hg.2.2.1]; exact hb)
      (set_tile_mono c ty hlen ha hb h)

theorem foldl_rows_mono (lx ly : List Nat) {a b : Nat} :
    ∀ s : DirtyTiles, s.bits.length = (s.tiles_x * s.tiles_y + 63) / 64 →
      a < s.tiles_x → b < s.tiles_y → s.is_tile_set a b = true →
      (ly.foldl (fun s ty => lx.foldl (fun s tx => s.set_tile tx ty) s) s).is_tile_set a b
        = true := by
  induction ly with
  | nil => intro s _ _ _ h; exact h
  | cons c rest ih =>
    intro s hlen ha hb h
    rw [List.foldl_cons]
    have hg := geom_foldl_inner lx c s
    simp only [geom, Prod.mk.injEq] at hg
    exact ih _ (by rw [hg.2.2.2.2.2, hg.2.1, hg.2.2.1]; exact hlen)
      (by rw [hg.2.1]; exact ha) (by rw [hg.2.2.1]; exact hb)
      (foldl_inner_mono lx c s hlen ha hb h)

theorem foldl_inner_hit (l : List Nat) (ty : Nat) {a : Nat} (hmem : a ∈ l) :
    ∀ s : DirtyTiles, s.bits.length = (s.tiles_x * s.tiles_y + 63) / 64 →
      a < s.tiles_x → ty < s.tiles_y →
      (l.foldl (fun s tx => s.set_tile tx ty) s).is_tile_set a ty = true := by
  induction l with
  | nil => cases hmem
  | cons c rest ih =>
    intro s hlen ha hty
    rw [List.foldl_cons]
    have hg := geom_set_tile s c ty
    simp only [geom, Prod.mk.injEq] at hg
    rcases List.mem_cons.mp hmem with rfl | hmem'
    · exact foldl_inner_mono rest ty (s.set_tile a ty)
        (by rw [hg.2.2.2.2.2, hg.2.1, hg.2.2.1]; exact hlen)
        (by rw [hg.2.1]; exact ha) (by rw [hg.2.2.1]; exact hty)
        (set_tile_target a ty hlen ha hty)
    · exact ih hmem' _ (by rw [hg.2.2.2.2.2, hg.2.1, hg.2.2.1]; exact hlen)
        (by rw [hg.2.1]; exact ha) (by rw [hg.2.2.1]; exact hty)

theorem foldl_rows_hit (lx ly : List Nat) {a b : Nat} (hmx : a ∈ lx) (hmy : b ∈ ly) :
    ∀ s : DirtyTiles, s.bits.length = (s.tiles_x * s.tiles_y + 63) / 64 →
      a < s.tiles_x → b < s.tiles_y →
      (ly.foldl (fun s ty => lx.foldl (fun s tx => s.set_tile tx ty) s) s).is_tile_set a b
        = true := by
  induction ly with
  | nil => cases hmy
  | cons c rest ih =>
    intro s hlen ha hb
    rw [List.foldl_cons]
    have hg := geom_foldl_inner lx c s
    simp only [geom, Prod.mk.injEq] at hg
    rcases List.mem_cons.mp hmy with rfl | hmy'
    · exact foldl_rows_mono lx rest _
        (by rw [hg.2.2.2.2.2, hg.2.1, hg.2.2.1]; exact hlen)
        (by rw [hg.2.1]; exact ha) (by rw [hg.2.2.1]; exact hb)
        (foldl_inner_hit lx b hmx s hlen ha hb)
    · exact ih hmy' _ (by rw [hg.2.2.2.2.2, hg.2.1, hg.2.2.1]; exact hlen)
        (by rw [hg.2.1]; exact ha) (by rw [hg.2.2.1]; exact hb)

/-! Clamp lemmas. -/

theorem clamp_to_some {r : Rect} {w h : Nat} {rc : Rect}
    (hc : r.clamp_to w h = some rc) :
    rc.x = r.x ∧ rc.y = r.y ∧ 0 < rc.width ∧ 0 < rc.height ∧
      rc.x + rc.width ≤ min (r.x + r.width) w ∧ rc.y + rc.height ≤ min (r.y + r.height) h := by
  unfold Rect.clamp_to Rect.new at hc
  split at hc
  · cases hc
  · split at hc
    · cases hc
    · dsimp only at hc
      split at hc
      · cases hc
      · next hwz =>
        injection hc with hc
        subst hc
        push_neg at hwz
        have h1 := satAdd_le r.x r.width
        have h2 := satAdd_le r.y r.height
        have h3 : Rect.right r = satAdd r.x r.width := rfl
        have h4 : Rect.bottom r = satAdd r.y r.height := rfl
        rw [h3, h4] at hwz
        dsimp only
        rw [h3, h4]
        refine ⟨rfl, rfl, by omega, by omega, by omega, by omega⟩

theorem clamp_to_bounds {r : Rect} {w h : Nat} {rc : Rect}
    (hc : r.clamp_to w h = some rc) :
    rc.x + rc.width ≤ w ∧ rc.y + rc.height ≤ h ∧ 0 < rc.width ∧ 0 < rc.height := by
  obtain ⟨_, _, h3, h4, h5, h6⟩ := clamp_to_some hc
  exact ⟨by omega, by omega, h3, h4⟩

theorem clamp_to_sub {r : Rect} {w h : Nat} {rc : Rect}
    (hc : r.clamp_to w h = some rc) : rc.subPix r := by
  obtain ⟨h1, h2, _, _, h5, h6⟩ := clamp_to_some hc
  intro px py hp
  obtain ⟨p1, p2, p3, p4⟩ := hp
  exact ⟨by omega, by omega, by omega, by omega⟩

theorem clamp_to_contains {r : Rect} {w h px py : Nat}
    (hw : w ≤ U32_MAX) (hh : h ≤ U32_MAX)
    (hc : r.containsPix px py) (hpx : px < w) (hpy : py < h) :
    ∃ rc, r.clamp_to w h = some rc ∧ rc.x = r.x ∧ rc.y = r.y ∧
      rc.containsPix px py := by
  obtain ⟨p1, p2, p3, p4⟩ := hc
  have hw0 : w ≠ 0 := by omega
  have hh0 : h ≠ 0 := by omega
  have hg : ¬ (r.x ≥ w ∨ r.y ≥ h) := by omega
  have hra : satAdd r.x r.width = min (r.x + r.width) U32_MAX := rfl
  have hrb : satAdd r.y r.height = min (r.y + r.height) U32_MAX := rfl
  have hxlt : px < min (Rect.right r) w := by
    unfold Rect.right
    rw [hra]
    omega
  have hylt : py < min (Rect.bottom r) h := by
    unfold Rect.bottom
    rw [hrb]
    omega
  refine ⟨⟨r.x, r.y, min (Rect.right r) w - r.x, min (Rect.bottom r) h - r.y⟩, ?_, rfl, rfl, ?_⟩
  · unfold Rect.clamp_to Rect.new
    rw [if_neg (by omega), if_neg hg]
    dsimp only
    rw [if_neg (by omega)]
  · unfold Rect.containsPix
    dsimp only
    refine ⟨by omega, by omega, by omega, by omega⟩

/-! Mark hit lemmas: the tile of a marked in-bounds pixel ends up set
(unless the tracker is fully dirty). -/

theorem MarkCtx_applyMark {s : DirtyTiles} (op : MarkOp) (h : MarkCtx s) :
    MarkCtx (applyMark s op) := by
  have hg := geom_applyMark s op
  simp only [geom, Prod.mk.injEq] at hg
  obtain ⟨g1, g2, g3, g4, g5, g6⟩ := hg
  obtain ⟨h1, h2, h3, h4, h5, h6⟩ := h
  exact ⟨by rw [g6, g2, g3]; exact h1, by rw [g1]; exact h2,
    by rw [g4, g2, g1]; exact h3, by rw [g5, g3, g1]; exact h4,
    by rw [g4]; exact h5, by rw [g5]; exact h6⟩

theorem applyMark_tile_mono {s : DirtyTiles} {a b : Nat} (op : MarkOp)
    (hlen : s.bits.length = (s.tiles_x * s.tiles_y + 63) / 64)
    (ha : a < s.tiles_x) (hb : b < s.tiles_y)
    (h : s.is_tile_set a b = true) : (applyMark s op).is_tile_set a b = true := by
  cases op with
  | point x y =>
    simp only [applyMark, DirtyTiles.mark_point]
    split
    · exact h
    · exact set_tile_mono _ _ hlen ha hb h
  | rect r =>
    simp only [applyMark, DirtyTiles.mark_rect]
    split
    · exact h
    · split
      · exact h
      · exact foldl_rows_mono _ _ s hlen ha hb h
  | full => exact h

theorem applyMarks_tile_mono {a b : Nat} (ops : List MarkOp) :
    ∀ s : DirtyTiles, s.bits.length = (s.tiles_x * s.tiles_y + 63) / 64 →
      a < s.tiles_x → b < s.tiles_y → s.is_tile_set a b = true →
      (applyMarks s ops).is_tile_set a b = true := by
  induction ops with
  | nil => intro s _ _ _ h; exact h
  | cons op rest ih =>
    intro s hlen ha hb h
    simp only [applyMarks, List.foldl_cons]
    have hg := geom_applyMark s op
    simp only [geom, Prod.mk.injEq] at hg
    exact ih (applyMark s op) (by rw [hg.2.2.2.2.2, hg.2.1, hg.2.2.1]; exact hlen)
      (by rw [hg.2.1]; exact ha) (by rw [hg.2.2.1]; exact hb)
      (applyMark_tile_mono op hlen ha hb h)

theorem applyMark_full_mono {s : DirtyTiles} (op : MarkOp) (h : s.full = true) :
    (applyMark s op).full = true := by
  rw [applyMark_of_full op h]
  exact h

theorem applyMark_hits {s : DirtyTiles} {op : MarkOp} {px py : Nat}
    (hctx : MarkCtx s) (hpx : px < s.width) (hpy : py < s.height)
    (hm : opMarks op px py) :
    (applyMark s op).full = true ∨
      (applyMark s op).is_tile_set (px / s.tile_size) (py / s.tile_size) = true := by
  obtain ⟨hlen, hT, hXw, hYh, hwM, hhM⟩ := hctx
  have htxb : px / s.tile_size < s.tiles_x := div_lt_of_lt_mul_ceil hpx hXw
  have htyb : py / s.tile_size < s.tiles_y := div_lt_of_lt_mul_ceil hpy hYh
  cases op with
  | point x y =>
    obtain ⟨rfl, rfl⟩ := hm
    simp only [applyMark, DirtyTiles.mark_point]
    by_cases hf : s.full = true
    · left
      rw [if_pos (Or.inl hf)]
      exact hf
    · right
      rw [if_neg (by push_neg; exact ⟨hf, by omega, by omega⟩)]
      exact set_tile_target _ _ hlen htxb htyb
  | rect r =>
    simp only [applyMark, DirtyTiles.mark_rect]
    by_cases hf : s.full = true
    · left
      rw [if_pos hf]
      exact hf
    · right
      rw [if_neg hf]
      obtain ⟨rc, hcl, hcx, hcy, hcc⟩ := clamp_to_contains hwM hhM hm hpx hpy
      rw [hcl]
      obtain ⟨c1, c2, c3, c4⟩ := hcc
      have hx0 : rc.x / s.tile_size ≤ px / s.tile_size := Nat.div_le_div_right c1
      have hx1 : px / s.tile_size ≤ (rc.x + rc.width - 1) / s.tile_size :=
        Nat.div_le_div_right (by omega)
      have hy0 : rc.y / s.tile_size ≤ py / s.tile_size := Nat.div_le_div_right c3
      have hy1 : py / s.tile_size ≤ (rc.y + rc.height - 1) / s.tile_size :=
        Nat.div_le_div_right (by omega)
      exact foldl_rows_hit _ _
        (List.mem_range'_1.mpr ⟨hx0, by omega⟩)
        (List.mem_range'_1.mpr ⟨hy0, by omega⟩)
        s hlen htxb htyb
  | full =>
    left
    rfl

theorem applyMarks_covers {px py : Nat} (ops : List MarkOp) :
    ∀ s : DirtyTiles, MarkCtx s → px < s.width → py < s.height →
      pixelMarked ops px py →
      (applyMarks s ops).full = true ∨
        (applyMarks s ops).is_tile_set (px / s.tile_size) (py / s.tile_size) = true := by
  induction ops with
  | nil =>
    intro s _ _ _ hm
    obtain ⟨op, hop, _⟩ := hm
    cases hop
  | cons op rest ih =>
    intro s hctx hpx hpy hm
    simp only [applyMarks, List.foldl_cons]
    have hg := geom_applyMark s op
    simp only [geom, Prod.mk.injEq] at hg
    have hctx' := MarkCtx_applyMark op hctx
    obtain ⟨o, ho, hom⟩ := hm
    rcases List.mem_cons.mp ho with rfl | ho'
    · rcases applyMark_hits hctx hpx hpy hom with hfull | hset
      · left
        rw [show List.foldl applyMark (applyMark s o) rest = applyMarks (applyMark s o) rest
          from rfl]
        rw [applyMarks_of_full rest hfull]
        exact hfull
      · right
        have htxb : px / s.tile_size < s.tiles_x :=
          div_lt_of_lt_mul_ceil hpx hctx.2.2.1
        have htyb : py / s.tile_size < s.tiles_y :=
          div_lt_of_lt_mul_ceil hpy hctx.2.2.2.1
        exact applyMarks_tile_mono rest (applyMark s o)
          (by rw [hg.2.2.2.2.2, hg.2.1, hg.2.2.1]; exact hctx.1)
          (by rw [hg.2.1]; exact htxb) (by rw [hg.2.2.1]; exact htyb) hset
    · have := ih (applyMark s op) hctx' (by rw [hg.2.2.2.1]; exact hpx)
        (by rw [hg.2.2.2.2.1]; exact hpy) ⟨o, ho', hom⟩
      rw [hg.1] at this
      exact this

/-! Counter-zero lemmas: a zero dirty counter after marking means nothing
was marked, used to preserve the well-formedness clause tying the counter
to the bits. -/

theorem set_tile_zero {s : DirtyTiles} {tx ty : Nat}
    (h : (s.set_tile tx ty).dirty_tiles = 0) : s.set_tile tx ty = s ∧ s.dirty_tiles = 0 := by
  unfold DirtyTiles.set_tile at h ⊢
  split at h
  · exact ⟨by rw [if_pos (by assumption)], h⟩
  · dsimp only at h
    split at h
    · exfalso
      simp only [satAdd, U32_MAX] at h
      omega
    · next hg _ =>
      rw [if_neg hg]
      dsimp only
      rw [if_neg (by assumption)]
      exact ⟨rfl, h⟩

theorem foldl_inner_zero (l : List Nat) (ty : Nat) :
    ∀ s : DirtyTiles, (l.foldl (fun s tx => s.set_tile tx ty) s).dirty_tiles = 0 →
      l.foldl (fun s tx => s.set_tile tx ty) s = s ∧ s.dirty_tiles = 0 := by
  induction l with
  | nil => intro s h; exact ⟨rfl, h⟩
  | cons a rest ih =>
    intro s h
    rw [List.foldl_cons] at h ⊢
    obtain ⟨he, hz⟩ := ih (s.set_tile a ty) h
    obtain ⟨he2, hz2⟩ := set_tile_zero hz
    rw [he, he2]
    exact ⟨rfl, hz2⟩

theorem foldl_rows_zero (lx ly : List Nat) :
    ∀ s : DirtyTiles,
      (ly.foldl (fun s ty => lx.foldl (fun s tx => s.set_tile tx ty) s) s).dirty_tiles = 0 →
      ly.foldl (fun s ty => lx.foldl (fun s tx => s.set_tile tx ty) s) s = s ∧
        s.dirty_tiles = 0 := by
  induction ly with
  | nil => intro s h; exact ⟨rfl, h⟩
  | cons a rest ih =>
    intro s h
    rw [List.foldl_cons] at h ⊢
    obtain ⟨he, hz⟩ := ih _ h
    obtain ⟨he2, hz2⟩ := foldl_inner_zero lx a s hz
    rw [he, he2]
    exact ⟨rfl, hz2⟩

theorem applyMark_zero {s : DirtyTiles} {op : MarkOp}
    (h : (applyMark s op).dirty_tiles = 0) :
    (applyMark s op).bits = s.bits ∧ s.dirty_tiles = 0 := by
  cases op with
  | point x y =>
    simp only [applyMark, DirtyTiles.mark_point] at h ⊢
    split at h
    · next hc => rw [if_pos hc]; exact ⟨rfl, h⟩
    · next hc =>
      rw [if_neg hc]
      obtain ⟨he, hz⟩ := set_tile_zero h
      rw [he]
      exact ⟨rfl, hz⟩
  | rect r =>
    simp only [applyMark, DirtyTiles.mark_rect] at h ⊢
    split at h
    · next hc => rw [if_pos hc]; exact ⟨rfl, h⟩
    · next hc =>
      rw [if_neg hc]
      split at h
      · exact ⟨rfl, h⟩
      · obtain ⟨he, hz⟩ := foldl_rows_zero _ _ s h
        rw [he]
        exact ⟨rfl, hz⟩
  | full => exact ⟨rfl, h⟩

theorem is_tile_set_congr {s₁ s₂ : DirtyTiles} (hb : s₁.bits = s₂.bits)
    (hx : s₁.tiles_x = s₂.tiles_x) (tx ty : Nat) :
    s₁.is_tile_set tx ty = s₂.is_tile_set tx ty := by
  simp [DirtyTiles.is_tile_set, hb, hx]

theorem WF_applyMark {s : DirtyTiles} (op : MarkOp) (h : s.WF) : (applyMark s op).WF := by
  have hg := geom_applyMark s op
  simp only [geom, Prod.mk.injEq] at hg
  obtain ⟨g1, g2, g3, g4, g5, g6⟩ := hg
  obtain ⟨h1, h2, h3, h4, h5, h6, h7⟩ := h
  refine ⟨by rw [g1]; exact h1, by rw [g1]; exact h2, by rw [g4]; exact h3,
    by rw [g5]; exact h4, by rw [g2, g3, g4, g5, g1]; exact h5,
    by rw [g6, g2, g3]; exact h6, ?_⟩
  intro hz tx ty htx hty
  obtain ⟨hb, hz0⟩ := applyMark_zero hz
  rw [is_tile_set_congr hb g2 tx ty]
  exact h7 hz0 tx ty (by rw [← g2]; exact htx) (by rw [← g3]; exact hty)

theorem WF_applyMarks {ops : List MarkOp} :
    ∀ {s : DirtyTiles}, s.WF → (applyMarks s ops).WF := by
  induction ops with
  | nil => intro s h; exact h
  | cons op rest ih =>
    intro s h
    simp only [applyMarks, List.foldl_cons]
    exact ih (WF_applyMark op h)

theorem WF_new {w h t : Nat} (hw : w ≤ U32_MAX) (hh : h ≤ U32_MAX) (ht : t ≤ U32_MAX) :
    (DirtyTiles.new w h t).WF := by
  refine ⟨?_, ?_, hw, hh, rfl, ?_, ?_⟩
  · show 0 < max t 1
    omega
  · show max t 1 ≤ U32_MAX
    have : (1 : Nat) ≤ U32_MAX := by simp [U32_MAX]
    omega
  · show (List.replicate _ (0 : Nat)).length = _
    rw [List.length_replicate]
    rfl
  · intro _ tx ty _ _
    simp only [DirtyTiles.new, DirtyTiles.is_tile_set]
    rw [getD_replicate_zero]
    split <;> simp

/-- Well-formedness bounds the pixel height of the tile grid minus one row
by u32::MAX; this is what confines height saturation in the merge pass to
the very last row. -/
theorem WF_rows_bound {s : DirtyTiles} (h : s.WF) :
    (s.tiles_y - 1) * s.tile_size ≤ U32_MAX := by
  obtain ⟨h1, h2, h3, h4, h5, h6, h7⟩ := h
  have hty : s.tiles_y = max (((s.height + s.tile_size - 1) % U32_MOD) / s.tile_size) 1 := by
    have := congrArg Prod.snd h5
    simpa [tiles_dim] using this
  set v := (s.height + s.tile_size - 1) % U32_MOD with hv
  have hvlt : v < U32_MOD := Nat.mod_lt _ (by simp [U32_MOD])
  have hvle : v ≤ U32_MAX := by
    simp only [U32_MOD] at hvlt
    simp only [U32_MAX]
    omega
  rcases le_or_lt (v / s.tile_size) 1 with hc | hc
  · have : s.tiles_y = 1 := by omega
    simp [this]
  · have : s.tiles_y = v / s.tile_size := by omega
    rw [this]
    have hd : (v / s.tile_size) * s.tile_size ≤ v := Nat.div_mul_le_self v s.tile_size
    have : (v / s.tile_size - 1) * s.tile_size ≤ (v / s.tile_size) * s.tile_size :=
      Nat.mul_le_mul_right _ (by omega)
    omega

/-! Lemmas about runsAux: every produced run is a nonempty in-range
interval, runs are ordered with gaps, and every set bit is covered. -/

theorem runsAux_mem : ∀ (bs : List Bool) (acc : Option Nat) (i : Nat),
    (∀ st, acc = some st → st < i) → ∀ pr ∈ runsAux acc i bs,
    pr.1 < pr.2 ∧ pr.2 ≤ i + bs.length ∧
      (∀ st, acc = some st → st ≤ pr.1) ∧ (acc = none → i ≤ pr.1) := by
  intro bs
  induction bs with
  | nil =>
    intro acc i hacc pr hpr
    cases acc with
    | none => cases hpr
    | some st =>
      simp only [runsAux, List.mem_singleton] at hpr
      subst hpr
      refine ⟨hacc st rfl, by simp, ?_, ?_⟩
      · intro st' h
        injection h with h
        omega
      · intro h
        simp at h
  | cons b bs ih =>
    intro acc i hacc pr hpr
    cases acc with
    | none =>
      simp only [runsAux] at hpr
      by_cases hb : b = true
      · rw [if_pos hb] at hpr
        have hm := ih (some i) (i + 1) (by intro st h; injection h with h; omega) pr hpr
        refine ⟨hm.1, ?_, ?_, ?_⟩
        · have := hm.2.1
          simp only [List.length_cons]
          omega
        · intro st h
          simp at h
        · intro _
          exact hm.2.2.1 i rfl
      · rw [if_neg hb] at hpr
        have hm := ih none (i + 1) (by intro st h; simp at h) pr hpr
        refine ⟨hm.1, ?_, ?_, ?_⟩
        · have := hm.2.1
          simp only [List.length_cons]
          omega
        · intro st h
          simp at h
        · intro _
          have := hm.2.2.2 rfl
          omega
    | some st =>
      simp only [runsAux] at hpr
      by_cases hb : b = true
      · rw [if_pos hb] at hpr
        have hst : st < i := hacc st rfl
        have hm := ih (some st) (i + 1) (by intro st' h; injection h with h; omega) pr hpr
        refine ⟨hm.1, ?_, ?_, ?_⟩
        · have := hm.2.1
          simp only [List.length_cons]
          omega
        · exact hm.2.2.1
        · intro h
          simp at h
      · rw [if_neg hb] at hpr
        have hst : st < i := hacc st rfl
        rcases List.mem_cons.mp hpr with rfl | hpr'
        · refine ⟨hst, by simp only [List.length_cons]; omega, ?_, ?_⟩
          · intro st' h
            injection h with h
            omega
          · intro h
            simp at h
        · have hm := ih none (i + 1) (by intro st' h; simp at h) pr hpr'
          refine ⟨hm.1, ?_, ?_, ?_⟩
          · have := hm.2.1
            simp only [List.length_cons]
            omega
          · intro st' h
            injection h with h
            have := hm.2.2.2 rfl
            omega
          · intro h
            simp at h

theorem runsAux_gap : ∀ (bs : List Bool) (acc : Option Nat) (i : Nat),
    (∀ st, acc = some st → st < i) →
    (runsAux acc i bs).Pairwise (fun p q => p.2 ≤ q.1) := by
  intro bs
  induction bs with
  | nil =>
    intro acc i _
    cases acc with
    | none => exact List.Pairwise.nil
    | some st => simp [runsAux]
  | cons b bs ih =>
    intro acc i hacc
    cases acc with
    | none =>
      simp only [runsAux]
      by_cases hb : b = true
      · rw [if_pos hb]
        exact ih (some i) (i + 1) (by intro st h; injection h with h; omega)
      · rw [if_neg hb]
        exact ih none (i + 1) (by intro st h; simp at h)
    | some st =>
      simp only [runsAux]
      by_cases hb : b = true
      · rw [if_pos hb]
        have hst : st < i := hacc st rfl
        exact ih (some st) (i + 1) (by intro st' h; injection h with h; omega)
      · rw [if_neg hb]
        refine List.Pairwise.cons ?_ (ih none (i + 1) (by intro st' h; simp at h))
        intro q hq
        have := runsAux_mem bs none (i + 1) (by intro st' h; simp at h) q hq
        have := this.2.2.2 rfl
        omega

theorem runsAux_some_head : ∀ (bs : List Bool) (st i : Nat), st < i →
    ∃ pr ∈ runsAux (some st) i bs, pr.1 = st ∧ i ≤ pr.2 := by
  intro bs
  induction bs with
  | nil =>
    intro st i hst
    exact ⟨(st, i), by simp [runsAux]⟩
  | cons b bs ih =>
    intro st i hst
    simp only [runsAux]
    by_cases hb : b = true
    · rw [if_pos hb]
      obtain ⟨pr, hmem, h1, h2⟩ := ih st (i + 1) (by omega)
      exact ⟨pr, hmem, h1, by omega⟩
    · rw [if_neg hb]
      exact ⟨(st, i), List.mem_cons_self _ _, rfl, Nat.le_refl i⟩

theorem runsAux_cover : ∀ (bs : List Bool) (acc : Option Nat) (i t : Nat),
    bs.getD t false = true → (∀ st, acc = some st → st < i) →
    ∃ pr ∈ runsAux acc i bs, pr.1 ≤ i + t ∧ i + t < pr.2 := by
  intro bs
  induction bs with
  | nil =>
    intro acc i t ht _
    simp [List.getD] at ht
  | cons b bs ih =>
    intro acc i t ht hacc
    cases t with
    | zero =>
      rw [List.getD_cons_zero] at ht
      subst ht
      cases acc with
      | none =>
        simp only [runsAux, if_pos rfl]
        obtain ⟨pr, hmem, h1, h2⟩ := runsAux_some_head bs i (i + 1) (by omega)
        exact ⟨pr, hmem, by omega, by omega⟩
      | some st =>
        have hst : st < i := hacc st rfl
        simp only [runsAux, if_pos rfl]
        obtain ⟨pr, hmem, h1, h2⟩ := runsAux_some_head bs st (i + 1) (by omega)
        exact ⟨pr, hmem, by omega, by omega⟩
    | succ t' =>
      rw [List.getD_cons_succ] at ht
      cases acc with
      | none =>
        simp only [runsAux]
        by_cases hb : b = true
        · rw [if_pos hb]
          obtain ⟨pr, hmem, h1, h2⟩ := ih (some i) (i + 1) t' ht
            (by intro st h; injection h with h; omega)
          exact ⟨pr, hmem, by omega, by omega⟩
        · rw [if_neg hb]
          obtain ⟨pr, hmem, h1, h2⟩ := ih none (i + 1) t' ht (by intro st h; simp at h)
          exact ⟨pr, hmem, by omega, by omega⟩
      | some st =>
        have hst : st < i := hacc st rfl
        simp only [runsAux]
        by_cases hb : b = true
        · rw [if_pos hb]
          obtain ⟨pr, hmem, h1, h2⟩ := ih (some st) (i + 1) t' ht
            (by intro st' h; injection h with h; omega)
          exact ⟨pr, hmem, by omega, by omega⟩
        · rw [if_neg hb]
          obtain ⟨pr, hmem, h1, h2⟩ := ih none (i + 1) t' ht (by intro st' h; simp at h)
          exact ⟨pr, List.mem_cons_of_mem _ hmem, by omega, by omega⟩

/-! Row-run lemmas at pixel granularity. -/

theorem rowBits_getD (s : DirtyTiles) (ty t : Nat) (ht : t < s.tiles_x) :
    (s.rowBits ty).getD t false = s.is_tile_set t ty := by
  simp [DirtyTiles.rowBits, List.getD_eq_getElem?_getD, List.getElem?_map,
    List.getElem?_range, ht]

theorem rowBits_length (s : DirtyTiles) (ty : Nat) : (s.rowBits ty).length = s.tiles_x := by
  simp [DirtyTiles.rowBits]

theorem rowRunsPix_mem {s : DirtyTiles} {ty : Nat} {pr : Nat × Nat}
    (h : pr ∈ s.rowRunsPix ty) :
    ∃ a b, pr = (a * s.tile_size, (b - a) * s.tile_size) ∧ a < b ∧ b ≤ s.tiles_x := by
  simp only [DirtyTiles.rowRunsPix, List.mem_map] at h
  obtain ⟨q, hq, rfl⟩ := h
  have := runsAux_mem _ none 0 (by intro st h; simp at h) q hq
  exact ⟨q.1, q.2, rfl, this.1, by have := this.2.1; rw [rowBits_length] at this; omega⟩

theorem rowRunsPix_gap (s : DirtyTiles) (ty : Nat) :
    (s.rowRunsPix ty).Pairwise (fun p q => p.1 + p.2 ≤ q.1) := by
  unfold DirtyTiles.rowRunsPix
  have hg := runsAux_gap (s.rowBits ty) none 0 (by intro st h; simp at h)
  have hg2 : (runsAux none 0 (s.rowBits ty)).Pairwise
      (fun p q => p.2 ≤ q.1 ∧ p.1 ≤ p.2) := by
    refine hg.imp_of_mem ?_
    intro p q hp hq hpq
    have := runsAux_mem _ none 0 (by intro st h; simp at h) p hp
    exact ⟨hpq, by omega⟩
  refine List.Pairwise.map _ ?_ hg2
  intro p q hpq
  simp only
  calc p.1 * s.tile_size + (p.2 - p.1) * s.tile_size
      = (p.1 + (p.2 - p.1)) * s.tile_size := by ring
    _ ≤ p.2 * s.tile_size := Nat.mul_le_mul_right _ (by omega)
    _ ≤ q.1 * s.tile_size := Nat.mul_le_mul_right _ hpq.1

theorem rowRunsPix_cover {s : DirtyTiles} {ty tx : Nat} (htx : tx < s.tiles_x)
    (hset : s.is_tile_set tx ty = true) :
    ∃ pr ∈ s.rowRunsPix ty, pr.1 ≤ tx * s.tile_size ∧
      (tx + 1) * s.tile_size ≤ pr.1 + pr.2 := by
  have hbit : (s.rowBits ty).getD tx false = true := by
    rw [rowBits_getD s ty tx htx]
    exact hset
  obtain ⟨q, hq, h1, h2⟩ := runsAux_cover _ none 0 tx hbit (by intro st h; simp at h)
  simp only [Nat.zero_add] at h1 h2
  refine ⟨(q.1 * s.tile_size, (q.2 - q.1) * s.tile_size), ?_, ?_, ?_⟩
  · simp only [DirtyTiles.rowRunsPix, List.mem_map]
    exact ⟨q, hq, rfl⟩
  · exact Nat.mul_le_mul_right _ h1
  · calc (tx + 1) * s.tile_size ≤ q.2 * s.tile_size := Nat.mul_le_mul_right _ (by omega)
      _ = (q.1 + (q.2 - q.1)) * s.tile_size := by congr 1; omega
      _ = q.1 * s.tile_size + (q.2 - q.1) * s.tile_size := by ring

/-! Disjointness and containment helpers. -/

theorem disjoint_of_cols {a b : Rect} (h : a.x + a.width ≤ b.x) : a.disjointPix b := by
  intro px py hpa hpb
  obtain ⟨a1, a2, _, _⟩ := hpa
  obtain ⟨b1, _, _, _⟩ := hpb
  omega

theorem disjoint_of_rows {a b : Rect} (h : a.y + a.height ≤ b.y) : a.disjointPix b := by
  intro px py hpa hpb
  obtain ⟨_, _, a3, a4⟩ := hpa
  obtain ⟨_, _, b3, _⟩ := hpb
  omega

theorem disjointPix_symm {a b : Rect} (h : a.disjointPix b) : b.disjointPix a := by
  intro px py h1 h2
  exact h px py h2 h1

theorem satAdd_le_u32 (a b : Nat) : satAdd a b ≤ U32_MAX := Nat.min_le_right _ _

/-! Forall₂ helpers. -/

theorem forall₂_mem_right {α β : Type} {R : α → β → Prop} :
    ∀ {l1 : List α} {l2 : List β}, List.Forall₂ R l1 l2 → ∀ b ∈ l2, ∃ a ∈ l1, R a b := by
  intro l1 l2 h
  induction h with
  | nil => intro b hb; cases hb
  | cons hr _ ih =>
    intro b hb
    rcases List.mem_cons.mp hb with rfl | hb'
    · exact ⟨_, List.mem_cons_self _ _, hr⟩
    · obtain ⟨a, ha, har⟩ := ih b hb'
      exact ⟨a, List.mem_cons_of_mem _ ha, har⟩

theorem forall₂_mem_left {α β : Type} {R : α → β → Prop} :
    ∀ {l1 : List α} {l2 : List β}, List.Forall₂ R l1 l2 → ∀ a ∈ l1, ∃ b ∈ l2, R a b := by
  intro l1 l2 h
  induction h with
  | nil => intro a ha; cases ha
  | cons hr _ ih =>
    intro a ha
    rcases List.mem_cons.mp ha with rfl | ha'
    · exact ⟨_, List.mem_cons_self _ _, hr⟩
    · obtain ⟨b, hb, hbr⟩ := ih a ha'
      exact ⟨b, List.mem_cons_of_mem _ hb, hbr⟩

theorem forall₂_pairwise {α β : Type} {R : α → β → Prop} {S : α → α → Prop}
    {S' : β → β → Prop}
    (hRS : ∀ a b a' b', R a b → R a' b' → S a a' → S' b b') :
    ∀ {l1 : List α} {l2 : List β}, List.Forall₂ R l1 l2 → l1.Pairwise S →
      l2.Pairwise S' := by
  intro l1 l2 h
  induction h with
  | nil => intro _; exact List.Pairwise.nil
  | @cons a b l1' l2' hr htail ih =>
    intro hp
    rcases List.pairwise_cons.mp hp with ⟨hhead, htl⟩
    refine List.Pairwise.cons ?_ (ih htl)
    intro b' hb'
    obtain ⟨a', ha', har'⟩ := forall₂_mem_right htail b' hb'
    exact hRS a b a' b' hr har' (hhead a' ha')

/-! Stable sort by x: identity on sorted input. -/

theorem sortByX_sorted_id : ∀ l : List Rect, l.Pairwise (fun a b => a.x ≤ b.x) →
    sortByX l = l := by
  intro l
  induction l with
  | nil => intro _; rfl
  | cons r rest ih =>
    intro h
    rcases List.pairwise_cons.mp h with ⟨hhead, htl⟩
    show insertByX r (sortByX rest) = r :: rest
    rw [ih htl]
    cases rest with
    | nil => rfl
    | cons p t =>
      show (if r.x ≤ p.x then r :: p :: t else p :: insertByX r t) = r :: p :: t
      rw [if_pos (hhead p (List.mem_cons_self _ _))]

/-! Structural lemmas about mergeRow. -/

theorem mergeRow_nil_flush (T y : Nat) : ∀ rs, (mergeRow T y [] rs).1 = [] := by
  intro rs
  induction rs with
  | nil => rfl
  | cons ru rest ih =>
    obtain ⟨x, w⟩ := ru
    simp only [mergeRow, List.takeWhile_nil, List.dropWhile_nil]
    exact ih

theorem mergeRow_flush_sublist (T y : Nat) :
    ∀ (rs : List (Nat × Nat)) (prev : List Rect),
      List.Sublist (mergeRow T y prev rs).1 prev := by
  intro rs
  induction rs with
  | nil => intro prev; exact List.Sublist.refl prev
  | cons ru rest ih =>
    intro prev
    obtain ⟨x, w⟩ := ru
    simp only [mergeRow]
    cases hrem : prev.dropWhile (fun r => decide (r.x < x)) with
    | nil =>
      simp only
      have h1 : (mergeRow T y [] rest).1 = [] := mergeRow_nil_flush T y rest
      rw [h1, List.append_nil]
      exact List.takeWhile_sublist _
    | cons p rem' =>
      simp only
      have hsplit : prev.takeWhile (fun r => decide (r.x < x)) ++ (p :: rem') = prev := by
        rw [← hrem]
        exact List.takeWhile_append_dropWhile _ _
      split
      · have h1 := ih rem'
        have h2 : List.Sublist
            (prev.takeWhile (fun r => decide (r.x < x)) ++ (mergeRow T y rem' rest).1)
            (prev.takeWhile (fun r => decide (r.x < x)) ++ (p :: rem')) :=
          List.Sublist.append_left (List.Sublist.cons p h1) _
        rw [hsplit] at h2
        exact h2
      · have h1 := ih (p :: rem')
        have h2 : List.Sublist
            (prev.takeWhile (fun r => decide (r.x < x)) ++ (mergeRow T y (p :: rem') rest).1)
            (prev.takeWhile (fun r => decide (r.x < x)) ++ (p :: rem')) :=
          List.Sublist.append_left h1 _
        rw [hsplit] at h2
        exact h2

theorem NpRel_mono {prev prev' : List Rect} {T y : Nat} {ru : Nat × Nat} {n : Rect}
    (hsub : ∀ p ∈ prev, p ∈ prev') (h : NpRel prev T y ru n) : NpRel prev' T y ru n := by
  obtain ⟨h1, h2, h3 | ⟨p, hp, h4⟩⟩ := h
  · exact ⟨h1, h2, Or.inl h3⟩
  · exact ⟨h1, h2, Or.inr ⟨p, hsub p hp, h4⟩⟩

theorem mergeRow_np_spec (T y : Nat) :
    ∀ (rs : List (Nat × Nat)) (prev : List Rect),
      List.Forall₂ (NpRel prev T y) rs (mergeRow T y prev rs).2 := by
  intro rs
  induction rs with
  | nil => intro prev; exact List.Forall₂.nil
  | cons ru rest ih =>
    intro prev
    obtain ⟨x, w⟩ := ru
    simp only [mergeRow]
    cases hrem : prev.dropWhile (fun r => decide (r.x < x)) with
    | nil =>
      simp only
      refine List.Forall₂.cons ⟨rfl, rfl, Or.inl ⟨rfl, rfl⟩⟩ ?_
      exact (ih []).imp (fun a b h => NpRel_mono (fun p hp => absurd hp (List.not_mem_nil p)) h)
    | cons p rem' =>
      simp only
      have hrm : ∀ q ∈ p :: rem', q ∈ prev := by
        intro q hq
        have hsub : List.Sublist (p :: rem') prev := hrem ▸ List.dropWhile_sublist _
        exact hsub.mem hq
      split
      · next hcond =>
        refine List.Forall₂.cons ?_ ?_
        · exact ⟨by simp [hcond.1], by simp [hcond.2.1],
            Or.inr ⟨p, hrm p (List.mem_cons_self _ _), hcond.1, hcond.2.1, hcond.2.2, rfl⟩⟩
        · exact (ih rem').imp (fun a b h => NpRel_mono
            (fun q hq => hrm q (List.mem_cons_of_mem _ hq)) h)
      · refine List.Forall₂.cons ⟨rfl, rfl, Or.inl ⟨rfl, rfl⟩⟩ ?_
        exact (ih (p :: rem')).imp (fun a b h => NpRel_mono hrm h)

theorem mergeRow_np_gap (T y : Nat) (rs : List (Nat × Nat)) (prev : List Rect)
    (hrs : rs.Pairwise (fun p q => p.1 + p.2 ≤ q.1)) :
    (mergeRow T y prev rs).2.Pairwise (fun a b => a.x + a.width ≤ b.x) := by
  refine forall₂_pairwise ?_ (mergeRow_np_spec T y rs prev) hrs
  intro a b a' b' hab ha'b' hgap
  obtain ⟨h1, h2, _⟩ := hab
  obtain ⟨h1', _, _⟩ := ha'b'
  omega

/-- Every open rectangle of the previous row is either flushed unchanged
or extended in place (same x, y, width; height grows). -/
theorem mergeRow_preserve (T y : Nat) :
    ∀ (rs : List (Nat × Nat)) (prev : List Rect),
      (∀ p ∈ prev, p.height ≤ U32_MAX) →
      ∀ p0 ∈ prev, p0 ∈ (mergeRow T y prev rs).1 ∨
        ∃ n ∈ (mergeRow T y prev rs).2,
          n.x = p0.x ∧ n.y = p0.y ∧ n.width = p0.width ∧ p0.height ≤ n.height := by
  intro rs
  induction rs with
  | nil =>
    intro prev _ p0 hp0
    exact Or.inl hp0
  | cons ru rest ih =>
    intro prev hhb p0 hp0
    obtain ⟨x, w⟩ := ru
    simp only [mergeRow]
    have hsplit : prev.takeWhile (fun r => decide (r.x < x)) ++
        prev.dropWhile (fun r => decide (r.x < x)) = prev :=
      List.takeWhile_append_dropWhile _ _
    cases hrem : prev.dropWhile (fun r => decide (r.x < x)) with
    | nil =>
      simp only
      left
      rw [hrem, List.append_nil] at hsplit
      rw [mergeRow_nil_flush T y rest, List.append_nil, hsplit]
      exact hp0
    | cons p rem' =>
      rw [hrem] at hsplit
      have hp0' : p0 ∈ prev.takeWhile (fun r => decide (r.x < x)) ∨ p0 ∈ p :: rem' := by
        rw [← hsplit] at hp0
        exact List.mem_append.mp hp0
      simp only
      split
      · next hcond =>
        rcases hp0' with htw | hpr
        · exact Or.inl (List.mem_append_left _ htw)
        · rcases List.mem_cons.mp hpr with rfl | hrem'
          · right
            refine ⟨⟨p0.x, p0.y, p0.width, satAdd p0.height T⟩, List.mem_cons_self _ _,
              rfl, rfl, rfl, ?_⟩
            exact le_satAdd_left (hhb p0 (by rw [← hsplit]; exact List.mem_append_right _ hpr))
          · have hsub : ∀ q ∈ rem', q ∈ prev := by
              intro q hq
              rw [← hsplit]
              exact List.mem_append_right _ (List.mem_cons_of_mem _ hq)
            rcases ih rem' (fun q hq => hhb q (hsub q hq)) p0 hrem' with hfl | ⟨n, hn, hns⟩
            · exact Or.inl (List.mem_append_right _ hfl)
            · exact Or.inr ⟨n, List.mem_cons_of_mem _ hn, hns⟩
      · rcases hp0' with htw | hpr
        · exact Or.inl (List.mem_append_left _ htw)
        · have hsub : ∀ q ∈ p :: rem', q ∈ prev := by
            intro q hq
            rw [← hsplit]
            exact List.mem_append_right _ hq
          rcases ih (p :: rem') (fun q hq => hhb q (hsub q hq)) p0 hpr with hfl | ⟨n, hn, hns⟩
          · exact Or.inl (List.mem_append_right _ hfl)
          · exact Or.inr ⟨n, List.mem_cons_of_mem _ hn, hns⟩

/-- Rectangles flushed by a row are pixel-disjoint from every rectangle
still open after that row. -/
theorem mergeRow_flush_np_disjoint (T y : Nat) :
    ∀ (rs : List (Nat × Nat)) (prev : List Rect),
      prev.Pairwise (fun a b => a.x + a.width ≤ b.x) →
      (∀ p ∈ prev, p.y + p.height = y) →
      rs.Pairwise (fun p q => p.1 + p.2 ≤ q.1) →
      ∀ f ∈ (mergeRow T y prev rs).1, ∀ n ∈ (mergeRow T y prev rs).2,
        f.disjointPix n := by
  intro rs
  induction rs with
  | nil =>
    intro prev _ _ _ f _ n hn
    cases hn
  | cons ru rest ih =>
    intro prev hgap hbot hrs f hf n hn
    obtain ⟨x, w⟩ := ru
    simp only [mergeRow] at hf hn
    have hsplit : prev.takeWhile (fun r => decide (r.x < x)) ++
        prev.dropWhile (fun r => decide (r.x < x)) = prev :=
      List.takeWhile_append_dropWhile _ _
    cases hrem : prev.dropWhile (fun r => decide (r.x < x)) with
    | nil =>
      rw [hrem] at hf hn
      rw [hrem, List.append_nil] at hsplit
      simp only at hf hn
      rw [mergeRow_nil_flush T y rest, List.append_nil] at hf
      have hfprev : f ∈ prev := by rw [← hsplit]; exact hf
      have hfbot : f.y + f.height = y := hbot f hfprev
      rcases List.mem_cons.mp hn with rfl | hn'
      · exact disjoint_of_rows (by simp; omega)
      · obtain ⟨ru', _, hrel⟩ := forall₂_mem_right (mergeRow_np_spec T y rest []) n hn'
        obtain ⟨_, _, ⟨hny, _⟩ | ⟨p', hp', _⟩⟩ := hrel
        · exact disjoint_of_rows (by omega)
        · exact absurd hp' (List.not_mem_nil p')
    | cons p rem' =>
      rw [hrem] at hf hn
      rw [hrem] at hsplit
      simp only at hf hn
      have htw_mem : ∀ q ∈ prev.takeWhile (fun r => decide (r.x < x)), q ∈ prev := by
        intro q hq
        rw [← hsplit]
        exact List.mem_append_left _ hq
      have hrem_mem : ∀ q ∈ p :: rem', q ∈ prev := by
        intro q hq
        rw [← hsplit]
        exact List.mem_append_right _ hq
      have hgap2 : (prev.takeWhile (fun r => decide (r.x < x)) ++ (p :: rem')).Pairwise
          (fun a b => a.x + a.width ≤ b.x) := by
        rw [hsplit]
        exact hgap
      have hcross : ∀ a ∈ prev.takeWhile (fun r => decide (r.x < x)), ∀ b ∈ p :: rem',
          a.x + a.width ≤ b.x := (List.pairwise_append.mp hgap2).2.2
      have hrem_gap : (p :: rem').Pairwise (fun a b => a.x + a.width ≤ b.x) :=
        (List.pairwise_append.mp hgap2).2.1
      split at hf
      · next hcond =>
        rw [if_pos hcond] at hn
        rcases List.mem_append.mp hf with htw | hfl'
        · -- f was skipped before reaching this run
          rcases List.mem_cons.mp hn with rfl | hn'
          · exact disjoint_of_cols (by have := hcross f htw p (List.mem_cons_self _ _); simp; omega)
          · obtain ⟨ru', _, hrel⟩ :=
              forall₂_mem_right (mergeRow_np_spec T y rest rem') n hn'
            obtain ⟨_, _, ⟨hny, _⟩ | ⟨p', hp', _, _, _, hnp'⟩⟩ := hrel
            · exact disjoint_of_rows (by have := hbot f (htw_mem f htw); omega)
            · have := hcross f htw p' (List.mem_cons_of_mem _ hp')
              exact disjoint_of_cols (by rw [hnp']; simp; omega)
        · -- f was flushed deeper in the recursion, inside rem'
          have hfrem' : f ∈ rem' := (mergeRow_flush_sublist T y rest rem').mem hfl'
          rcases List.mem_cons.mp hn with rfl | hn'
          · have := (List.pairwise_cons.mp hrem_gap).1 f hfrem'
            exact disjointPix_symm (disjoint_of_cols (by simp; omega))
          · exact ih rem' (List.pairwise_cons.mp hrem_gap).2
              (fun q hq => hbot q (hrem_mem q (List.mem_cons_of_mem _ hq)))
              (List.pairwise_cons.mp hrs).2 f hfl' n hn'
      · next hcond =>
        rw [if_neg hcond] at hn
        rcases List.mem_cons.mp hn with rfl | hn'
        · -- n is the fresh one-tile-high rectangle of this run
          have hfprev : f ∈ prev := by
            rcases List.mem_append.mp hf with htw | hfl'
            · exact htw_mem f htw
            · exact hrem_mem f ((mergeRow_flush_sublist T y rest (p :: rem')).mem hfl')
          exact disjoint_of_rows (by have := hbot f hfprev; simp; omega)
        · rcases List.mem_append.mp hf with htw | hfl'
          · obtain ⟨ru', _, hrel⟩ :=
              forall₂_mem_right (mergeRow_np_spec T y rest (p :: rem')) n hn'
            obtain ⟨_, _, ⟨hny, _⟩ | ⟨p', hp', _, _, _, hnp'⟩⟩ := hrel
            · exact disjoint_of_rows (by have := hbot f (htw_mem f htw); omega)
            · have := hcross f htw p' hp'
              exact disjoint_of_cols (by rw [hnp']; simp; omega)
          · exact ih (p :: rem') hrem_gap
              (fun q hq => hbot q (hrem_mem q hq))
              (List.pairwise_cons.mp hrs).2 f hfl' n hn'

theorem satAdd_cases (a b : Nat) :
    satAdd a b = a + b ∧ a + b ≤ U32_MAX ∨ satAdd a b = U32_MAX ∧ U32_MAX < a + b := by
  simp only [satAdd]
  omega

theorem scanRows_inv (s : DirtyTiles) (hWF : s.WF) :
    ∀ j, j ≤ s.tiles_y → ScanInv s j (s.scanRows j) := by
  intro j
  induction j with
  | zero =>
    intro _
    refine ⟨?_, List.Pairwise.nil, ?_, List.Pairwise.nil, ?_⟩
    · intro r hr; cases hr
    · intro r hr; cases hr
    · intro px py _ hpy _ _
      omega
  | succ j ih =>
    intro hj1
    have hj : j ≤ s.tiles_y := by omega
    have hT : 0 < s.tile_size := hWF.1
    have hTle : s.tile_size ≤ U32_MAX := hWF.2.1
    have hhle : s.height ≤ U32_MAX := hWF.2.2.2.1
    have hrows := WF_rows_bound hWF
    have hjT : j * s.tile_size ≤ U32_MAX := by
      have h1 : j * s.tile_size ≤ (s.tiles_y - 1) * s.tile_size :=
        Nat.mul_le_mul_right _ (by omega)
      omega
    obtain ⟨hprev_struct, hprev_gap, hout_bot, hdisj, hcover⟩ := ih hj
    have hbot : ∀ r ∈ (s.scanRows j).2, r.y + r.height = j * s.tile_size := by
      intro r hr
      rcases (hprev_struct r hr).2.2 with h | h
      · exact h
      · omega
    have hsorted : sortByX (s.scanRows j).2 = (s.scanRows j).2 := by
      refine sortByX_sorted_id _ (hprev_gap.imp ?_)
      intro a b h
      omega
    have hrs_gap := rowRunsPix_gap s j
    have hunf : s.scanRows (j + 1) =
        ((s.scanRows j).1 ++ (mergeRow s.tile_size (j * s.tile_size)
          (sortByX (s.scanRows j).2) (s.rowRunsPix j)).1,
         (mergeRow s.tile_size (j * s.tile_size)
          (sortByX (s.scanRows j).2) (s.rowRunsPix j)).2) := rfl
    rw [hunf, hsorted]
    set out := (s.scanRows j).1 with hout_def
    set prev := (s.scanRows j).2 with hprev_def
    set rs := s.rowRunsPix j with hrs_def
    set fl := (mergeRow s.tile_size (j * s.tile_size) prev rs).1 with hfl_def
    set np := (mergeRow s.tile_size (j * s.tile_size) prev rs).2 with hnp_def
    have hnp_spec := mergeRow_np_spec s.tile_size (j * s.tile_size) rs prev
    have hfl_sub := mergeRow_flush_sublist s.tile_size (j * s.tile_size) rs prev
    have hsucc : (j + 1) * s.tile_size = j * s.tile_size + s.tile_size := Nat.succ_mul _ _
    have hout_disj := List.pairwise_append.mp hdisj
    refine ⟨?_, ?_, ?_, ?_, ?_⟩
    · -- structure of the new open rectangles
      intro n hn
      obtain ⟨ru, hru, hrel⟩ := forall₂_mem_right hnp_spec n hn
      obtain ⟨hnx, hnw, hcase⟩ := hrel
      obtain ⟨a, b, hab, hab2, hab3⟩ := rowRunsPix_mem hru
      have hwpos : 0 < n.width := by
        rw [hnw, hab]
        simp only
        exact Nat.mul_pos (by omega) hT
      rcases hcase with ⟨hny, hnh⟩ | ⟨p, hp, hpx, hpw, hpb, hneq⟩
      · exact ⟨hwpos, by rw [hnh]; exact hTle, Or.inl (by rw [hny, hnh]; omega)⟩
      · have hnh : n.height = satAdd p.height s.tile_size := by rw [hneq]
        have hny : n.y = p.y := by rw [hneq]
        refine ⟨hwpos, by rw [hnh]; exact satAdd_le_u32 _ _, ?_⟩
        rcases satAdd_cases p.height s.tile_size with ⟨he, hle⟩ | ⟨he, hlt⟩
        · exact Or.inl (by rw [hnh, hny, he]; omega)
        · exact Or.inr (by omega)
    · -- the new open rectangles keep disjoint ordered spans
      exact mergeRow_np_gap _ _ rs prev hrs_gap
    · -- flushed rectangles lie above the next row boundary
      intro r hr
      rcases List.mem_append.mp hr with hro | hrf
      · have := hout_bot r hro
        omega
      · have := hbot r (hfl_sub.mem hrf)
        omega
    · -- everything produced so far is pairwise pixel-disjoint
      rw [List.append_assoc]
      refine List.pairwise_append.mpr ⟨hout_disj.1, ?_, ?_⟩
      · refine List.pairwise_append.mpr ⟨hout_disj.2.1.sublist hfl_sub, ?_, ?_⟩
        · refine (mergeRow_np_gap _ _ rs prev hrs_gap).imp ?_
          intro a b h
          exact disjoint_of_cols h
        · intro f hf n hn
          exact mergeRow_flush_np_disjoint _ _ rs prev hprev_gap hbot hrs_gap f hf n hn
      · intro o ho r hr
        rcases List.mem_append.mp hr with hrf | hrn
        · exact hout_disj.2.2 o ho r (hfl_sub.mem hrf)
        · -- old finalized rectangle vs new open rectangle
          obtain ⟨ru, hru, hrel⟩ := forall₂_mem_right hnp_spec r hrn
          obtain ⟨hnx, hnw, hcase⟩ := hrel
          rcases hcase with ⟨hny, _⟩ | ⟨p, hp, hpx, hpw, hpb, hneq⟩
          · refine disjoint_of_rows ?_
            rw [hny]
            exact hout_bot o ho
          · intro px py hpo hpr
            have hoy : py < j * s.tile_size := by
              have h1 := hout_bot o ho
              obtain ⟨_, _, _, h4⟩ := hpo
              omega
            have hpc : p.containsPix px py := by
              obtain ⟨r1, r2, r3, r4⟩ := hpr
              have e1 : r.x = p.x := by rw [hneq]
              have e2 : r.y = p.y := by rw [hneq]
              have e3 : r.width = p.width := by rw [hneq]
              refine ⟨by omega, by omega, by omega, ?_⟩
              have := hbot p hp
              omega
            exact hout_disj.2.2 o ho p hp px py hpo hpc
    · -- coverage of every set tile of rows 0..j
      intro px py hpx hpy hpyh hset
      rcases Nat.lt_or_ge py (j * s.tile_size) with hlt | hge
      · obtain ⟨r, hr, hrc⟩ := hcover px py hpx hlt hpyh hset
        rcases List.mem_append.mp hr with hro | hrp
        · exact ⟨r, by rw [List.append_assoc]; exact List.mem_append_left _ hro, hrc⟩
        · have hprevh : ∀ p ∈ prev, p.height ≤ U32_MAX := by
            intro p hp
            exact (hprev_struct p hp).2.1
          rcases mergeRow_preserve _ _ rs prev hprevh r hrp with hrf | ⟨n, hn, e1, e2, e3, e4⟩
          · exact ⟨r, by
              rw [List.append_assoc]
              exact List.mem_append_right _ (List.mem_append_left _ hrf), hrc⟩
          · refine ⟨n, by
              rw [List.append_assoc]
              exact List.mem_append_right _ (List.mem_append_right _ hn), ?_⟩
            obtain ⟨r1, r2, r3, r4⟩ := hrc
            exact ⟨by omega, by omega, by omega, by omega⟩
      · have hpyT : py / s.tile_size = j := by
          rw [div_eq_iff_bounds hT]
          omega
        rw [hpyT] at hset
        obtain ⟨ru, hru, hru1, hru2⟩ := rowRunsPix_cover hpx hset
        obtain ⟨n, hn, hnx, hnw, hcase⟩ := forall₂_mem_left hnp_spec ru hru
        have htx1 : (px / s.tile_size) * s.tile_size ≤ px := div_mul_le px _
        have htx2 : px < (px / s.tile_size + 1) * s.tile_size := lt_div_succ_mul px _ hT
        refine ⟨n, by
          rw [List.append_assoc]
          exact List.mem_append_right _ (List.mem_append_right _ hn), ?_, ?_, ?_, ?_⟩
        · omega
        · omega
        · rcases hcase with ⟨hny, _⟩ | ⟨p, hp, _, _, hpb, hneq⟩
          · omega
          · have e2 : n.y = p.y := by rw [hneq]
            omega
        · rcases hcase with ⟨hny, hnh⟩ | ⟨p, hp, _, _, hpb, hneq⟩
          · omega
          · have e2 : n.y = p.y := by rw [hneq]
            have e4 : n.height = satAdd p.height s.tile_size := by rw [hneq]
            rcases satAdd_cases p.height s.tile_size with ⟨he, hle⟩ | ⟨he, hlt2⟩
            · omega
            · rw [e4, he]
              omega

/-! Union and bounds lemmas for the cap-enforcement branch. -/

theorem union_x (a b : Rect) : (a.union b).x = min a.x b.x := rfl

theorem union_y (a b : Rect) : (a.union b).y = min a.y b.y := rfl

theorem union_width (a b : Rect) :
    (a.union b).width = max (max a.right b.right - min a.x b.x) 1 := rfl

theorem union_height (a b : Rect) :
    (a.union b).height = max (max a.bottom b.bottom - min a.y b.y) 1 := rfl

theorem right_of_le {r : Rect} (h : r.x + r.width ≤ U32_MAX) : r.right = r.x + r.width :=
  satAdd_of_le h

theorem bottom_of_le {r : Rect} (h : r.y + r.height ≤ U32_MAX) : r.bottom = r.y + r.height :=
  satAdd_of_le h

theorem union_inBounds {a b : Rect} {w h : Nat} (hw : w ≤ U32_MAX) (hh : h ≤ U32_MAX)
    (ha : a.inBounds w h) (hb : b.inBounds w h) : (a.union b).inBounds w h := by
  obtain ⟨a1, a2, a3, a4⟩ := ha
  obtain ⟨b1, b2, b3, b4⟩ := hb
  have ea := right_of_le (r := a) (by omega)
  have eb := right_of_le (r := b) (by omega)
  have ea2 := bottom_of_le (r := a) (by omega)
  have eb2 := bottom_of_le (r := b) (by omega)
  refine ⟨?_, ?_, ?_, ?_⟩
  · rw [union_x, union_width, ea, eb]
    omega
  · rw [union_y, union_height, ea2, eb2]
    omega
  · rw [union_width]
    omega
  · rw [union_height]
    omega

theorem union_sub_left {a b : Rect} {w h : Nat} (hw : w ≤ U32_MAX) (hh : h ≤ U32_MAX)
    (ha : a.inBounds w h) (hb : b.inBounds w h) : a.subPix (a.union b) := by
  obtain ⟨a1, a2, a3, a4⟩ := ha
  obtain ⟨b1, b2, b3, b4⟩ := hb
  have ea := right_of_le (r := a) (by omega)
  have eb := right_of_le (r := b) (by omega)
  have ea2 := bottom_of_le (r := a) (by omega)
  have eb2 := bottom_of_le (r := b) (by omega)
  intro px py hp
  obtain ⟨p1, p2, p3, p4⟩ := hp
  refine ⟨?_, ?_, ?_, ?_⟩
  · rw [union_x]; omega
  · rw [union_x, union_width, ea, eb]; omega
  · rw [union_y]; omega
  · rw [union_y, union_height, ea2, eb2]; omega

theorem union_sub_right {a b : Rect} {w h : Nat} (hw : w ≤ U32_MAX) (hh : h ≤ U32_MAX)
    (ha : a.inBounds w h) (hb : b.inBounds w h) : b.subPix (a.union b) := by
  obtain ⟨a1, a2, a3, a4⟩ := ha
  obtain ⟨b1, b2, b3, b4⟩ := hb
  have ea := right_of_le (r := a) (by omega)
  have eb := right_of_le (r := b) (by omega)
  have ea2 := bottom_of_le (r := a) (by omega)
  have eb2 := bottom_of_le (r := b) (by omega)
  intro px py hp
  obtain ⟨p1, p2, p3, p4⟩ := hp
  refine ⟨?_, ?_, ?_, ?_⟩
  · rw [union_x]; omega
  · rw [union_x, union_width, ea, eb]; omega
  · rw [union_y]; omega
  · rw [union_y, union_height, ea2, eb2]; omega

theorem subPix_coords {f R : Rect} (hfw : 0 < f.width) (hfh : 0 < f.height)
    (h : f.subPix R) :
    R.x ≤ f.x ∧ f.x + f.width ≤ R.x + R.width ∧ R.y ≤ f.y ∧
      f.y + f.height ≤ R.y + R.height := by
  have h1 := h f.x f.y ⟨Nat.le_refl _, by omega, Nat.le_refl _, by omega⟩
  have h2 := h (f.x + f.width - 1) (f.y + f.height - 1)
    ⟨by omega, by omega, by omega, by omega⟩
  obtain ⟨a1, a2, a3, a4⟩ := h1
  obtain ⟨b1, b2, b3, b4⟩ := h2
  exact ⟨a1, by omega, a3, by omega⟩

theorem union_sub_of_sub {a b R : Rect} {w h : Nat} (hw : w ≤ U32_MAX) (hh : h ≤ U32_MAX)
    (ha : a.inBounds w h) (hb : b.inBounds w h)
    (har : a.subPix R) (hbr : b.subPix R) : (a.union b).subPix R := by
  obtain ⟨a1, a2, a3, a4⟩ := ha
  obtain ⟨b1, b2, b3, b4⟩ := hb
  have ea := right_of_le (r := a) (by omega)
  have eb := right_of_le (r := b) (by omega)
  have ea2 := bottom_of_le (r := a) (by omega)
  have eb2 := bottom_of_le (r := b) (by omega)
  obtain ⟨c1, c2, c3, c4⟩ := subPix_coords a3 a4 har
  obtain ⟨d1, d2, d3, d4⟩ := subPix_coords b3 b4 hbr
  intro px py hp
  obtain ⟨p1, p2, p3, p4⟩ := hp
  rw [union_x] at p1
  rw [union_y] at p3
  rw [union_x, union_width, ea, eb] at p2
  rw [union_y, union_height, ea2, eb2] at p4
  exact ⟨by omega, by omega, by omega, by omega⟩

theorem foldl_union_spec {w h : Nat} (hw : w ≤ U32_MAX) (hh : h ≤ U32_MAX) :
    ∀ (l : List Rect) (r0 : Rect), r0.inBounds w h → (∀ f ∈ l, f.inBounds w h) →
      (l.foldl Rect.union r0).inBounds w h ∧
      r0.subPix (l.foldl Rect.union r0) ∧
      (∀ f ∈ l, f.subPix (l.foldl Rect.union r0)) ∧
      (∀ R : Rect, r0.subPix R → (∀ f ∈ l, f.subPix R) →
        (l.foldl Rect.union r0).subPix R) := by
  intro l
  induction l with
  | nil =>
    intro r0 h0 _
    exact ⟨h0, fun px py hp => hp, fun f hf => absurd hf (List.not_mem_nil f),
      fun R hR _ => hR⟩
  | cons f t ih =>
    intro r0 h0 hl
    have hf := hl f (List.mem_cons_self _ _)
    have ht : ∀ g ∈ t, g.inBounds w h := fun g hg => hl g (List.mem_cons_of_mem _ hg)
    have hu := union_inBounds hw hh h0 hf
    obtain ⟨i1, i2, i3, i4⟩ := ih (r0.union f) hu ht
    rw [List.foldl_cons]
    refine ⟨i1, ?_, ?_, ?_⟩
    · intro px py hp
      exact i2 px py (union_sub_left hw hh h0 hf px py hp)
    · intro g hg
      rcases List.mem_cons.mp hg with rfl | hg'
      · intro px py hp
        exact i2 px py (union_sub_right hw hh h0 hf px py hp)
      · exact i3 g hg'
    · intro R hr0 hfs
      refine i4 R ?_ (fun g hg => hfs g (List.mem_cons_of_mem _ hg))
      exact union_sub_of_sub hw hh h0 hf hr0 (hfs f (List.mem_cons_self _ _))

/-! drainFragments lemmas. -/

theorem clampStep_sub (s : DirtyTiles) (r : Rect) : (s.clampStep r).subPix r := by
  unfold DirtyTiles.clampStep
  cases hc : r.clamp_to s.width s.height with
  | some rc =>
    simp only
    exact clamp_to_sub hc
  | none =>
    simp only
    intro px py hp
    obtain ⟨p1, p2, _, _⟩ := hp
    dsimp only at p1 p2
    omega

theorem drainFragments_inBounds (s : DirtyTiles) :
    ∀ r ∈ s.drainFragments, r.inBounds s.width s.height := by
  intro r hr
  unfold DirtyTiles.drainFragments at hr
  rcases List.mem_filter.mp hr with ⟨hmem, hpred⟩
  obtain ⟨r0, _, hr0⟩ := List.mem_map.mp hmem
  simp only [Bool.and_eq_true, decide_eq_true_eq] at hpred
  unfold DirtyTiles.clampStep at hr0
  cases hc : r0.clamp_to s.width s.height with
  | some rc =>
    rw [hc] at hr0
    simp only at hr0
    subst hr0
    obtain ⟨h1, h2, h3, h4⟩ := clamp_to_bounds hc
    exact ⟨h1, h2, h3, h4⟩
  | none =>
    rw [hc] at hr0
    simp only at hr0
    subst hr0
    simp only at hpred
    omega

theorem drainFragments_disjoint (s : DirtyTiles) (hWF : s.WF) :
    s.drainFragments.Pairwise Rect.disjointPix := by
  unfold DirtyTiles.drainFragments
  refine List.Pairwise.filter _ ?_
  refine List.Pairwise.map _ ?_ ((scanRows_inv s hWF s.tiles_y (Nat.le_refl _)).2.2.2.1)
  intro a b hab px py h1 h2
  exact hab px py (clampStep_sub s a px py h1) (clampStep_sub s b px py h2)

theorem drainFragments_cover (s : DirtyTiles) (hWF : s.WF) {px py : Nat}
    (hpx : px < s.width) (hpy : py < s.height)
    (htx : px / s.tile_size < s.tiles_x) (hty : py / s.tile_size < s.tiles_y)
    (hset : s.is_tile_set (px / s.tile_size) (py / s.tile_size) = true) :
    ∃ r ∈ s.drainFragments, r.containsPix px py := by
  have hwU : s.width ≤ U32_MAX := hWF.2.2.1
  have hhU : s.height ≤ U32_MAX := hWF.2.2.2.1
  have hT : 0 < s.tile_size := hWF.1
  have hpyY : py < s.tiles_y * s.tile_size := by
    have := lt_div_succ_mul py s.tile_size hT
    have h2 : (py / s.tile_size + 1) * s.tile_size ≤ s.tiles_y * s.tile_size :=
      Nat.mul_le_mul_right _ (by omega)
    omega
  obtain ⟨r0, hr0, hrc⟩ := (scanRows_inv s hWF s.tiles_y (Nat.le_refl _)).2.2.2.2
    px py htx hpyY hpy hset
  obtain ⟨rc, hcl, _, _, hcc⟩ := clamp_to_contains hwU hhU hrc hpx hpy
  have hcs : s.clampStep r0 = rc := by
    unfold DirtyTiles.clampStep
    rw [hcl]
  refine ⟨rc, ?_, hcc⟩
  unfold DirtyTiles.drainFragments
  refine List.mem_filter.mpr ⟨?_, ?_⟩
  · exact List.mem_map.mpr ⟨r0, hr0, hcs⟩
  · obtain ⟨c1, c2, c3, c4⟩ := hcc
    simp only [Bool.and_eq_true, decide_eq_true_eq]
    omega

/-! take_regions: branch lemmas and the three engine theorems (coverage,
bounds, disjointness). -/

theorem take_regions_full (s : DirtyTiles) (m : Nat) (hw : s.width ≠ 0) (hh : s.height ≠ 0)
    (hf : s.full = true) :
    (s.take_regions m).2 = [⟨0, 0, s.width, s.height⟩] := by
  unfold DirtyTiles.take_regions
  rw [if_neg (by omega), if_pos hf]

theorem take_regions_empty_of_clean (s : DirtyTiles) (m : Nat)
    (hf : s.full = false) (hd : s.dirty_tiles = 0) : (s.take_regions m).2 = [] := by
  unfold DirtyTiles.take_regions
  by_cases h0 : s.width = 0 ∨ s.height = 0
  · rw [if_pos h0]
  · rw [if_neg h0, if_neg (by rw [hf]; simp), if_pos hd]

theorem take_regions_post (s : DirtyTiles) (m : Nat) :
    (s.take_regions m).1.full = false ∧ (s.take_regions m).1.dirty_tiles = 0 := by
  unfold DirtyTiles.take_regions
  by_cases h0 : s.width = 0 ∨ s.height = 0
  · rw [if_pos h0]
    exact ⟨rfl, rfl⟩
  · rw [if_neg h0]
    by_cases hf : s.full = true
    · rw [if_pos hf]
      exact ⟨rfl, rfl⟩
    · rw [if_neg hf]
      by_cases hd : s.dirty_tiles = 0
      · rw [if_pos hd]
        exact ⟨Bool.not_eq_true _ ▸ hf, hd⟩
      · rw [if_neg hd]
        exact ⟨rfl, rfl⟩

theorem take_regions_twice (s : DirtyTiles) (m m' : Nat) :
    (((s.take_regions m).1).take_regions m').2 = [] := by
  obtain ⟨h1, h2⟩ := take_regions_post s m
  exact take_regions_empty_of_clean _ m' h1 h2

theorem take_regions_covers (s : DirtyTiles) (hWF : s.WF) (m : Nat)
    {px py : Nat} (hpx : px < s.width) (hpy : py < s.height)
    (htx : px / s.tile_size < s.tiles_x) (hty : py / s.tile_size < s.tiles_y)
    (hor : s.full = true ∨ s.is_tile_set (px / s.tile_size) (py / s.tile_size) = true) :
    ∃ r ∈ (s.take_regions m).2, r.containsPix px py := by
  have hwU : s.width ≤ U32_MAX := hWF.2.2.1
  have hhU : s.height ≤ U32_MAX := hWF.2.2.2.1
  unfold DirtyTiles.take_regions
  rw [if_neg (by omega)]
  by_cases hfull : s.full = true
  · rw [if_pos hfull]
    refine ⟨⟨0, 0, s.width, s.height⟩, List.mem_singleton_self _, ?_⟩
    exact ⟨Nat.zero_le _, by dsimp only; omega, Nat.zero_le _, by dsimp only; omega⟩
  · rw [if_neg hfull]
    have hset : s.is_tile_set (px / s.tile_size) (py / s.tile_size) = true := by
      rcases hor with h | h
      · exact absurd h hfull
      · exact h
    by_cases hd : s.dirty_tiles = 0
    · exfalso
      have := hWF.2.2.2.2.2.2 hd (px / s.tile_size) (py / s.tile_size) htx hty
      rw [this] at hset
      cases hset
    · rw [if_neg hd]
      obtain ⟨f, hf, hfc⟩ := drainFragments_cover s hWF hpx hpy htx hty hset
      dsimp only
      by_cases hlen : m < s.drainFragments.length
      · rw [if_pos hlen]
        cases hfr : s.drainFragments with
        | nil =>
          rw [hfr] at hf
          cases hf
        | cons r0 rest =>
          have hbounds : ∀ g ∈ s.drainFragments, g.inBounds s.width s.height :=
            drainFragments_inBounds s
          rw [hfr] at hbounds hf
          obtain ⟨_, hsub0, hsubl, _⟩ := foldl_union_spec hwU hhU rest r0
            (hbounds r0 (List.mem_cons_self _ _))
            (fun g hg => hbounds g (List.mem_cons_of_mem _ hg))
          refine ⟨rest.foldl Rect.union r0, List.mem_singleton_self _, ?_⟩
          rcases List.mem_cons.mp hf with rfl | hf'
          · exact hsub0 px py hfc
          · exact hsubl f hf' px py hfc
      · rw [if_neg hlen]
        exact ⟨f, hf, hfc⟩

theorem take_regions_inBounds (s : DirtyTiles) (hWF : s.WF) (m : Nat) :
    ∀ r ∈ (s.take_regions m).2,
      r.x + r.width ≤ s.width ∧ r.y + r.height ≤ s.height := by
  have hwU : s.width ≤ U32_MAX := hWF.2.2.1
  have hhU : s.height ≤ U32_MAX := hWF.2.2.2.1
  intro r hr
  unfold DirtyTiles.take_regions at hr
  by_cases h0 : s.width = 0 ∨ s.height = 0
  · rw [if_pos h0] at hr
    cases hr
  · rw [if_neg h0] at hr
    by_cases hfull : s.full = true
    · rw [if_pos hfull] at hr
      rcases List.mem_singleton.mp hr with rfl
      dsimp only
      omega
    · rw [if_neg hfull] at hr
      by_cases hd : s.dirty_tiles = 0
      · rw [if_pos hd] at hr
        cases hr
      · rw [if_neg hd] at hr
        dsimp only at hr
        by_cases hlen : m < s.drainFragments.length
        · rw [if_pos hlen] at hr
          cases hfr : s.drainFragments with
          | nil =>
            rw [hfr] at hlen
            simp at hlen
          | cons r0 rest =>
            rw [hfr] at hr
            rcases List.mem_singleton.mp hr with rfl
            have hbounds : ∀ g ∈ s.drainFragments, g.inBounds s.width s.height :=
              drainFragments_inBounds s
            rw [hfr] at hbounds
            obtain ⟨hib, _, _, _⟩ := foldl_union_spec hwU hhU rest r0
              (hbounds r0 (List.mem_cons_self _ _))
              (fun g hg => hbounds g (List.mem_cons_of_mem _ hg))
            exact ⟨hib.1, hib.2.1⟩
        · rw [if_neg hlen] at hr
          obtain ⟨h1, h2, _, _⟩ := drainFragments_inBounds s r hr
          exact ⟨h1, h2⟩

theorem take_regions_disjoint (s : DirtyTiles) (hWF : s.WF) (m : Nat) :
    ((s.take_regions m).2).Pairwise Rect.disjointPix := by
  unfold DirtyTiles.take_regions
  by_cases h0 : s.width = 0 ∨ s.height = 0
  · rw [if_pos h0]
    exact List.Pairwise.nil
  · rw [if_neg h0]
    by_cases hfull : s.full = true
    · rw [if_pos hfull]
      exact List.pairwise_singleton _ _
    · rw [if_neg hfull]
      by_cases hd : s.dirty_tiles = 0
      · rw [if_pos hd]
        exact List.Pairwise.nil
      · rw [if_neg hd]
        dsimp only
        by_cases hlen : m < s.drainFragments.length
        · rw [if_pos hlen]
          cases s.drainFragments with
          | nil => exact List.Pairwise.nil
          | cons r0 rest => exact List.pairwise_singleton _ _
        · rw [if_neg hlen]
          exact drainFragments_disjoint s hWF

theorem take_regions_cap (s : DirtyTiles) (hWF : s.WF) (m : Nat)
    (hw : s.width ≠ 0) (hh : s.height ≠ 0) (hf : s.full = false) (hd : s.dirty_tiles ≠ 0)
    (hlen : m < s.drainFragments.length) :
    (s.take_regions m).2 = [s.mergedFrag] ∧
      (∀ f ∈ s.drainFragments, f.subPix s.mergedFrag) ∧
      (∀ R : Rect, (∀ f ∈ s.drainFragments, f.subPix R) → s.mergedFrag.subPix R) := by
  unfold DirtyTiles.mergedFrag
  have hwU : s.width ≤ U32_MAX := hWF.2.2.1
  have hhU : s.height ≤ U32_MAX := hWF.2.2.2.1
  unfold DirtyTiles.take_regions
  rw [if_neg (by omega), if_neg (by rw [hf]; simp), if_neg hd]
  dsimp only
  rw [if_pos hlen]
  cases hfr : s.drainFragments with
  | nil =>
    rw [hfr] at hlen
    simp at hlen
  | cons r0 rest =>
    have hbounds : ∀ g ∈ s.drainFragments, g.inBounds s.width s.height :=
      drainFragments_inBounds s
    rw [hfr] at hbounds
    obtain ⟨_, hsub0, hsubl, hmin⟩ := foldl_union_spec hwU hhU rest r0
      (hbounds r0 (List.mem_cons_self _ _))
      (fun g hg => hbounds g (List.mem_cons_of_mem _ hg))
    refine ⟨rfl, ?_, ?_⟩
    · intro f hfm
      rcases List.mem_cons.mp hfm with rfl | hf'
      · exact hsub0
      · exact hsubl f hf'
    · intro R hR
      exact hmin R (hR r0 (List.mem_cons_self _ _))
        (fun g hg => hR g (List.mem_cons_of_mem _ hg))

/-! Field transport through a mark sequence and the grid-coverage bounds
of tiles_dim in the overflow-free regime. -/

theorem applyMarks_fields (s0 : DirtyTiles) (ops : List MarkOp) :
    (applyMarks s0 ops).tile_size = s0.tile_size ∧
    (applyMarks s0 ops).tiles_x = s0.tiles_x ∧
    (applyMarks s0 ops).tiles_y = s0.tiles_y ∧
    (applyMarks s0 ops).width = s0.width ∧
    (applyMarks s0 ops).height = s0.height := by
  have := geom_applyMarks ops s0
  simp only [geom, Prod.mk.injEq] at this
  exact ⟨this.1, this.2.1, this.2.2.1, this.2.2.2.1, this.2.2.2.2.1⟩

theorem tiles_dim_ge {w h t : Nat} (ht : 0 < t) (hw : w + t ≤ U32_MOD)
    (hh : h + t ≤ U32_MOD) :
    w ≤ (tiles_dim w h t).1 * t ∧ h ≤ (tiles_dim w h t).2 * t := by
  unfold tiles_dim
  dsimp only
  have hmw : (w + t - 1) % U32_MOD = w + t - 1 := Nat.mod_eq_of_lt (by omega)
  have hmh : (h + t - 1) % U32_MOD = h + t - 1 := Nat.mod_eq_of_lt (by omega)
  rw [hmw, hmh]
  constructor
  · have := ceil_mul_ge w t ht
    have h2 : ((w + t - 1) / t) * t ≤ (max ((w + t - 1) / t) 1) * t :=
      Nat.mul_le_mul_right _ (Nat.le_max_left _ _)
    omega
  · have := ceil_mul_ge h t ht
    have h2 : ((h + t - 1) / t) * t ≤ (max ((h + t - 1) / t) 1) * t :=
      Nat.mul_le_mul_right _ (Nat.le_max_left _ _)
    omega

/-! Scaling lemmas. -/

theorem qmax_eq_left {a b : ℚ} (h : b ≤ a) : qmax a b = a := by
  unfold qmax
  split
  · next h2 => exact le_antisymm h h2
  · rfl

theorem qmin_eq_left {a b : ℚ} (h : a ≤ b) : qmin a b = a := by
  unfold qmin
  rw [if_pos h]

theorem f32_to_u32_exact {q : ℚ} (hden : q.den = 1) (h0 : 0 ≤ q)
    (hle : q ≤ (U32_MAX : ℚ)) : ((f32_to_u32 q : Nat) : ℚ) = q := by
  have hq : ((q.num : ℤ) : ℚ) = q := by
    have := Rat.num_div_den q
    rw [hden] at this
    simpa using this
  have hfloor : ⌊q⌋ = q.num := by
    conv_lhs => rw [← hq]
    rw [Int.floor_intCast]
  have hnum0 : (0 : ℤ) ≤ q.num := by
    rw [← hq] at h0
    exact_mod_cast h0
  have hnumle : q.num ≤ (U32_MAX : ℤ) := by
    rw [← hq] at hle
    exact_mod_cast hle
  unfold f32_to_u32
  rw [hfloor]
  have hmin : min q.num.toNat U32_MAX = q.num.toNat := by omega
  rw [hmin]
  calc ((q.num.toNat : Nat) : ℚ) = ((q.num.toNat : ℤ) : ℚ) := by push_cast; ring
    _ = ((q.num : ℤ) : ℚ) := by rw [Int.toNat_of_nonneg hnum0]
    _ = q := hq

/-- ndc_scale agrees with clip_extent / surface_extent exactly when the
scaled buffer extent (buffer extent times the scale factor) is an integer
between 1 and the surface extent on each axis; in general ndc_scale is
scaled_extent / max(surface_extent, 1), which the counterexample below
separates from clip/surface when PixelPerfect crops. -/
theorem compute_scaling_ndc (bw bh sw sh : Nat) (mode : ScalingMode)
    (hsw : 0 < sw) (hsh : 0 < sh) (hswU : sw ≤ U32_MAX) (hshU : sh ≤ U32_MAX)
    (hden1 : ((bw : ℚ) *
      (compute_scaling (bw, bh) (sw, sh) mode).buffer_to_surface_scale).den = 1)
    (hge1 : 1 ≤ (bw : ℚ) *
      (compute_scaling (bw, bh) (sw, sh) mode).buffer_to_surface_scale)
    (hle1 : (bw : ℚ) *
      (compute_scaling (bw, bh) (sw, sh) mode).buffer_to_surface_scale ≤ (sw : ℚ))
    (hden2 : ((bh : ℚ) *
      (compute_scaling (bw, bh) (sw, sh) mode).buffer_to_surface_scale).den = 1)
    (hge2 : 1 ≤ (bh : ℚ) *
      (compute_scaling (bw, bh) (sw, sh) mode).buffer_to_surface_scale)
    (hle2 : (bh : ℚ) *
      (compute_scaling (bw, bh) (sw, sh) mode).buffer_to_surface_scale ≤ (sh : ℚ)) :
    (compute_scaling (bw, bh) (sw, sh) mode).ndc_scale.1 =
      ((compute_scaling (bw, bh) (sw, sh) mode).clip_rect.width : ℚ) / (sw : ℚ) ∧
    (compute_scaling (bw, bh) (sw, sh) mode).ndc_scale.2 =
      ((compute_scaling (bw, bh) (sw, sh) mode).clip_rect.height : ℚ) / (sh : ℚ) := by
  have e1 : (compute_scaling (bw, bh) (sw, sh) mode).ndc_scale.1 =
      (bw : ℚ) * (compute_scaling (bw, bh) (sw, sh) mode).buffer_to_surface_scale /
        qmax (sw : ℚ) 1 := by
    cases mode <;> rfl
  have e2 : (compute_scaling (bw, bh) (sw, sh) mode).ndc_scale.2 =
      (bh : ℚ) * (compute_scaling (bw, bh) (sw, sh) mode).buffer_to_surface_scale /
        qmax (sh : ℚ) 1 := by
    cases mode <;> rfl
  have e3 : (compute_scaling (bw, bh) (sw, sh) mode).clip_rect.width =
      f32_to_u32 (qmax (qmin ((bw : ℚ) *
        (compute_scaling (bw, bh) (sw, sh) mode).buffer_to_surface_scale) (sw : ℚ)) 1) := by
    cases mode <;> rfl
  have e4 : (compute_scaling (bw, bh) (sw, sh) mode).clip_rect.height =
      f32_to_u32 (qmax (qmin ((bh : ℚ) *
        (compute_scaling (bw, bh) (sw, sh) mode).buffer_to_surface_scale) (sh : ℚ)) 1) := by
    cases mode <;> rfl
  have hswq : (1 : ℚ) ≤ (sw : ℚ) := by exact_mod_cast hsw
  have hshq : (1 : ℚ) ≤ (sh : ℚ) := by exact_mod_cast hsh
  have hswm : qmax (sw : ℚ) 1 = (sw : ℚ) := qmax_eq_left hswq
  have hshm : qmax (sh : ℚ) 1 = (sh : ℚ) := qmax_eq_left hshq
  have hc1 : qmax (qmin ((bw : ℚ) *
      (compute_scaling (bw, bh) (sw, sh) mode).buffer_to_surface_scale) (sw : ℚ)) 1 =
      (bw : ℚ) * (compute_scaling (bw, bh) (sw, sh) mode).buffer_to_surface_scale := by
    rw [qmin_eq_left hle1]
    exact qmax_eq_left hge1
  have hc2 : qmax (qmin ((bh : ℚ) *
      (compute_scaling (bw, bh) (sw, sh) mode).buffer_to_surface_scale) (sh : ℚ)) 1 =
      (bh : ℚ) * (compute_scaling (bw, bh) (sw, sh) mode).buffer_to_surface_scale := by
    rw [qmin_eq_left hle2]
    exact qmax_eq_left hge2
  have hswUq : ((sw : Nat) : ℚ) ≤ (U32_MAX : ℚ) := by exact_mod_cast hswU
  have hshUq : ((sh : Nat) : ℚ) ≤ (U32_MAX : ℚ) := by exact_mod_cast hshU
  constructor
  · rw [e1, e3, hc1, hswm, f32_to_u32_exact hden1 (by linarith) (by linarith)]
  · rw [e2, e4, hc2, hshm, f32_to_u32_exact hden2 (by linarith) (by linarith)]

/-! Vec::resize lemmas. -/

theorem vecResize_length (l : List Nat) (n v : Nat) : (vecResize l n v).length = n := by
  unfold vecResize
  split
  · next h => simp [List.length_take]; omega
  · next h => simp [List.length_append, List.length_replicate]; omega

theorem vecResize_getD_old (l : List Nat) (n v i d : Nat) (hi : i < l.length)
    (hin : i < n) : (vecResize l n v).getD i d = l.getD i d := by
  unfold vecResize
  split
  · simp [List.getD_eq_getElem?_getD, List.getElem?_take, hin]
  · simp [List.getD_eq_getElem?_getD, List.getElem?_append, hi]

theorem vecResize_getD_new (l : List Nat) (n v i d : Nat) (hi : l.length ≤ i)
    (hin : i < n) : (vecResize l n v).getD i d = v := by
  unfold vecResize
  split
  · next h => omega
  · next h =>
    simp only [List.getD_eq_getElem?_getD, List.getElem?_append]
    rw [if_neg (by omega), List.getElem?_replicate]
    rw [if_pos (by omega)]
    rfl

/-! resize_buffer: shape of the successful result. -/

theorem argb_resize_buffer_ok (s : PixstageArgb1555) (w h : Nat) (hw : 0 < w)
    (hh : 0 < h) :
    ∃ s', s.resize_buffer w h = Except.ok s' ∧
      s'.pixels = vecResize s.pixels (w * h) 0 ∧
      s'.width = w ∧ s'.height = h ∧ s'.dirty.full = true := by
  unfold PixstageArgb1555.resize_buffer
  rw [if_neg (by omega)]
  exact ⟨_, rfl, rfl, rfl, rfl, rfl⟩

theorem indexed_resize_buffer_ok (s : PixstageIndexed) (w h : Nat) (hw : 0 < w)
    (hh : 0 < h) :
    ∃ s', s.resize_buffer w h = Except.ok s' ∧
      s'.indices = vecResize s.indices (w * h) 0 ∧
      s'.width = w ∧ s'.height = h ∧ s'.dirty.full = true := by
  unfold PixstageIndexed.resize_buffer
  rw [if_neg (by omega)]
  exact ⟨_, rfl, rfl, rfl, rfl, rfl⟩

/-! Concrete surfaces used by the closed theorems below. -/

/-- Evaluation helper: f32 to u32 cast of a rational that is a small
integer. -/
theorem f32_to_u32_eval (k : Nat) (q : ℚ) (hq : q = ((k : ℤ) : ℚ)) (hk : k ≤ U32_MAX) :
    f32_to_u32 q = k := by
  unfold f32_to_u32
  rw [hq, Int.floor_intCast]
  have h1 : ((k : ℤ)).toNat = k := by omega
  rw [h1]
  omega

/-- Evaluation helper: all fields of a PixelPerfect scaling state from the
values of its intermediate expressions. -/
theorem compute_scaling_pp_eval (bw bh sw sh : Nat) (sc : ℚ) (cw ch cx cy : Nat)
    (hsc : qmax ((⌊qmin (qmax ((sw : ℚ) / (bw : ℚ)) 1) (qmax ((sh : ℚ) / (bh : ℚ)) 1)⌋ : ℤ) : ℚ) 1
      = sc)
    (hcw : f32_to_u32 (qmax (qmin ((bw : ℚ) * sc) (sw : ℚ)) 1) = cw)
    (hch : f32_to_u32 (qmax (qmin ((bh : ℚ) * sc) (sh : ℚ)) 1) = ch)
    (hcx : f32_to_u32 (qmax (((sw : ℚ) - qmax (qmin ((bw : ℚ) * sc) (sw : ℚ)) 1) / 2) 0) = cx)
    (hcy : f32_to_u32 (qmax (((sh : ℚ) - qmax (qmin ((bh : ℚ) * sc) (sh : ℚ)) 1) / 2) 0) = cy) :
    (compute_scaling (bw, bh) (sw, sh) .PixelPerfect).buffer_to_surface_scale = sc ∧
    (compute_scaling (bw, bh) (sw, sh) .PixelPerfect).clip_rect = ⟨cx, cy, cw, ch⟩ ∧
    (compute_scaling (bw, bh) (sw, sh) .PixelPerfect).ndc_scale =
      ((bw : ℚ) * sc / qmax (sw : ℚ) 1, (bh : ℚ) * sc / qmax (sh : ℚ) 1) := by
  subst hsc
  subst hcw
  subst hch
  subst hcx
  subst hcy
  exact ⟨rfl, rfl, rfl⟩

/-- A well-formed tracker whose buffer fits the tile grid without u32 wrap
satisfies the marking context invariant. -/
theorem MarkCtx_of_WF {s : DirtyTiles} (h : s.WF)
    (hw : s.width + s.tile_size ≤ U32_MOD) (hh : s.height + s.tile_size ≤ U32_MOD) :
    MarkCtx s := by
  obtain ⟨h1, h2, h3, h4, h5, h6, h7⟩ := h
  obtain ⟨hgw, hgh⟩ := tiles_dim_ge h1 hw hh
  have hx : s.tiles_x = (tiles_dim s.width s.height s.tile_size).1 := by
    simpa using congrArg Prod.fst h5
  have hy : s.tiles_y = (tiles_dim s.width s.height s.tile_size).2 := by
    simpa using congrArg Prod.snd h5
  exact ⟨h6, h1, by rw [hx]; exact hgw, by rw [hy]; exact hgh, h3, h4⟩

/-- After clear, no tile bit reads as set. -/
theorem clear_is_tile_set (s : DirtyTiles) (tx ty : Nat) :
    s.clear.is_tile_set tx ty = false := by
  simp only [DirtyTiles.clear, DirtyTiles.is_tile_set]
  rw [getD_replicate_zero]
  split <;> simp

/-- C1 (amended): drain exhaustiveness holds provided the tile-count
computation does not overflow u32, i.e. width + tile_size ≤ 2^32 and
height + tile_size ≤ 2^32 (the source computes `width + tile_size - 1` in
u32, which wraps for width near u32::MAX and can drop marks — see the
counterexample).  Under that proviso, for every sequence of
mark_point/mark_rect/mark_full calls on a fresh tracker and any
max_regions, every in-bounds marked pixel lies in some returned rectangle
of take_regions, and every returned rectangle lies inside the buffer
bounds. -/
theorem claim_C1 (w h t : Nat) (ops : List MarkOp) (m : Nat)
    (hwU : w ≤ U32_MAX) (hhU : h ≤ U32_MAX) (htU : t ≤ U32_MAX)
    (hwo : w + max t 1 ≤ U32_MOD) (hho : h + max t 1 ≤ U32_MOD) :
    (∀ px py, px < w → py < h → pixelMarked ops px py →
      ∃ r ∈ ((applyMarks (DirtyTiles.new w h t) ops).take_regions m).2,
        r.containsPix px py) ∧
    (∀ r ∈ ((applyMarks (DirtyTiles.new w h t) ops).take_regions m).2,
      r.x + r.width ≤ w ∧ r.y + r.height ≤ h) := by
  have hWF0 : (DirtyTiles.new w h t).WF := WF_new hwU hhU htU
  have hWF : (applyMarks (DirtyTiles.new w h t) ops).WF := WF_applyMarks hWF0
  have hfields := applyMarks_fields (DirtyTiles.new w h t) ops
  have hw0 : (DirtyTiles.new w h t).width = w := rfl
  have hh0 : (DirtyTiles.new w h t).height = h := rfl
  have ht0 : (DirtyTiles.new w h t).tile_size = max t 1 := rfl
  have hctx : MarkCtx (DirtyTiles.new w h t) :=
    MarkCtx_of_WF hWF0 (by rw [hw0, ht0]; exact hwo) (by rw [hh0, ht0]; exact hho)
  have hdge := tiles_dim_ge (t := max t 1) (by omega) hwo hho
  constructor
  · intro px py hpx hpy hm
    have hor := applyMarks_covers ops (DirtyTiles.new w h t) hctx
      (by rw [hw0]; exact hpx) (by rw [hh0]; exact hpy) hm
    rw [ht0] at hor
    have hts : (applyMarks (DirtyTiles.new w h t) ops).tile_size = max t 1 := by
      rw [hfields.1]
      exact ht0
    have htx : px / (applyMarks (DirtyTiles.new w h t) ops).tile_size <
        (applyMarks (DirtyTiles.new w h t) ops).tiles_x := by
      rw [hts, hfields.2.1]
      exact div_lt_of_lt_mul_ceil hpx hdge.1
    have hty : py / (applyMarks (DirtyTiles.new w h t) ops).tile_size <
        (applyMarks (DirtyTiles.new w h t) ops).tiles_y := by
      rw [hts, hfields.2.2.1]
      exact div_lt_of_lt_mul_ceil hpy hdge.2
    have hor' : (applyMarks (DirtyTiles.new w h t) ops).full = true ∨
        (applyMarks (DirtyTiles.new w h t) ops).is_tile_set
          (px / (applyMarks (DirtyTiles.new w h t) ops).tile_size)
          (py / (applyMarks (DirtyTiles.new w h t) ops).tile_size) = true := by
      rw [hts]
      exact hor
    exact take_regions_covers _ hWF m (by rw [hfields.2.2.2.1]; exact hpx)
      (by rw [hfields.2.2.2.2]; exact hpy) htx hty hor'
  · intro r hr
    have hb := take_regions_inBounds _ hWF m r hr
    rw [hfields.2.2.2.1, hfields.2.2.2.2] at hb
    exact hb

/-- C1 counterexample to the unamended claim: with width = u32::MAX and
tile_size = 32, `width + tile_size - 1` wraps in u32, tiles_dim collapses
to a single tile column, and the in-bounds marked pixel at x = 2^31 is
covered by no returned rectangle. -/
theorem claim_C1_cex :
    pixelMarked [MarkOp.point 2147483648 0] 2147483648 0 ∧
    2147483648 < (DirtyTiles.new 4294967295 1 32).width ∧
    0 < (DirtyTiles.new 4294967295 1 32).height ∧
    ¬ ∃ r ∈ ((applyMarks (DirtyTiles.new 4294967295 1 32)
        [MarkOp.point 2147483648 0]).take_regions 64).2,
      r.containsPix 2147483648 0 := by decide

theorem claim_C1_witness :
    (∀ px py, px < 3 → py < 2 →
      pixelMarked [MarkOp.point 0 0, MarkOp.point 2 1] px py →
      ∃ r ∈ ((applyMarks (DirtyTiles.new 3 2 1)
          [MarkOp.point 0 0, MarkOp.point 2 1]).take_regions 4).2,
        r.containsPix px py) ∧
    (∀ r ∈ ((applyMarks (DirtyTiles.new 3 2 1)
        [MarkOp.point 0 0, MarkOp.point 2 1]).take_regions 4).2,
      r.x + r.width ≤ 3 ∧ r.y + r.height ≤ 2) :=
  claim_C1 3 2 1 [MarkOp.point 0 0, MarkOp.point 2 1] 4 (by decide) (by decide)
    (by decide) (by decide) (by decide)

/-- C2: the rectangles returned by a single take_regions call are pairwise
pixel-disjoint, for every tracker reachable by marking a fresh tracker. -/
theorem claim_C2 (w h t : Nat) (ops : List MarkOp) (m : Nat)
    (hwU : w ≤ U32_MAX) (hhU : h ≤ U32_MAX) (htU : t ≤ U32_MAX) :
    (((applyMarks (DirtyTiles.new w h t) ops).take_regions m).2).Pairwise
      Rect.disjointPix :=
  take_regions_disjoint _ (WF_applyMarks (WF_new hwU hhU htU)) m

theorem claim_C2_witness :
    (((applyMarks (DirtyTiles.new 2 2 1)
        [MarkOp.point 0 0, MarkOp.point 1 1]).take_regions 4).2).Pairwise
      Rect.disjointPix :=
  claim_C2 2 2 1 [MarkOp.point 0 0, MarkOp.point 1 1] 4 (by decide) (by decide)
    (by decide)

/-- C4: after mark_full — regardless of marks made before or after it —
take_regions returns exactly the full buffer extent, for nonzero buffer
dimensions. -/
theorem claim_C4 (w h t : Nat) (ops1 ops2 : List MarkOp) (m : Nat)
    (hw : w ≠ 0) (hh : h ≠ 0) :
    ((applyMarks ((applyMarks (DirtyTiles.new w h t) ops1).mark_full)
        ops2).take_regions m).2 = [⟨0, 0, w, h⟩] := by
  have hfull : ((applyMarks (DirtyTiles.new w h t) ops1).mark_full).full = true := rfl
  rw [applyMarks_of_full ops2 hfull]
  have hfields := applyMarks_fields (DirtyTiles.new w h t) ops1
  have hwid : ((applyMarks (DirtyTiles.new w h t) ops1).mark_full).width = w := by
    show (applyMarks (DirtyTiles.new w h t) ops1).width = w
    rw [hfields.2.2.2.1]
    rfl
  have hht : ((applyMarks (DirtyTiles.new w h t) ops1).mark_full).height = h := by
    show (applyMarks (DirtyTiles.new w h t) ops1).height = h
    rw [hfields.2.2.2.2]
    rfl
  rw [take_regions_full _ m (by rw [hwid]; exact hw) (by rw [hht]; exact hh) hfull,
    hwid, hht]

theorem claim_C4_witness :
    ((applyMarks ((applyMarks (DirtyTiles.new 2 2 1)
        [MarkOp.point 0 0]).mark_full) [MarkOp.point 1 1]).take_regions 3).2 =
      [⟨0, 0, 2, 2⟩] :=
  claim_C4 2 2 1 [MarkOp.point 0 0] [MarkOp.point 1 1] 3 (by decide) (by decide)

/-- C8: take_regions leaves the tracker clean — full flag false, dirty
counter zero, no tile bit set (for well-formed trackers) — so a second
take_regions with no marks in between returns the empty list. -/
theorem claim_C8 (s : DirtyTiles) (m m' : Nat) (hWF : s.WF) :
    (s.take_regions m).1.full = false ∧
    (s.take_regions m).1.dirty_tiles = 0 ∧
    (∀ tx ty, tx < (s.take_regions m).1.tiles_x →
      ty < (s.take_regions m).1.tiles_y →
      (s.take_regions m).1.is_tile_set tx ty = false) ∧
    (((s.take_regions m).1).take_regions m').2 = [] := by
  have hst : (s.take_regions m).1 = s.clear ∨
      ((s.take_regions m).1 = s ∧ s.dirty_tiles = 0 ∧ s.full = false) := by
    unfold DirtyTiles.take_regions
    by_cases h0 : s.width = 0 ∨ s.height = 0
    · rw [if_pos h0]
      exact Or.inl rfl
    · rw [if_neg h0]
      by_cases hf : s.full = true
      · rw [if_pos hf]
        exact Or.inl rfl
      · rw [if_neg hf]
        by_cases hd : s.dirty_tiles = 0
        · rw [if_pos hd]
          exact Or.inr ⟨rfl, hd, by simpa using hf⟩
        · rw [if_neg hd]
          exact Or.inl rfl
  refine ⟨?_, ?_, ?_, take_regions_twice s m m'⟩ <;>
    rcases hst with heq | ⟨heq, hd, hf⟩
  · rw [heq]
    rfl
  · rw [heq]
    exact hf
  · rw [heq]
    rfl
  · rw [heq]
    exact hd
  · rw [heq]
    intro tx ty _ _
    exact clear_is_tile_set s tx ty
  · rw [heq]
    exact hWF.2.2.2.2.2.2 hd

theorem claim_C8_witness :
    ((applyMarks (DirtyTiles.new 3 2 1) [MarkOp.point 1 1]).take_regions 2).1.full
        = false ∧
    ((applyMarks (DirtyTiles.new 3 2 1)
        [MarkOp.point 1 1]).take_regions 2).1.dirty_tiles = 0 ∧
    (∀ tx ty,
      tx < ((applyMarks (DirtyTiles.new 3 2 1)
        [MarkOp.point 1 1]).take_regions 2).1.tiles_x →
      ty < ((applyMarks (DirtyTiles.new 3 2 1)
        [MarkOp.point 1 1]).take_regions 2).1.tiles_y →
      ((applyMarks (DirtyTiles.new 3 2 1)
        [MarkOp.point 1 1]).take_regions 2).1.is_tile_set tx ty = false) ∧
    ((((applyMarks (DirtyTiles.new 3 2 1)
        [MarkOp.point 1 1]).take_regions 2).1).take_regions 5).2 = [] :=
  claim_C8 (applyMarks (DirtyTiles.new 3 2 1) [MarkOp.point 1 1]) 2 5
    (WF_applyMarks (WF_new (by decide) (by decide) (by decide)))

/-- C9 (amended): tile coverage holds provided the sums width + tile_size
and height + tile_size do not exceed 2^32 (the source computes
`width + tile_size - 1` in u32, which wraps for width near u32::MAX — see
the counterexample): then tiles_x * tile_size ≥ width,
tiles_y * tile_size ≥ height, and both counts are at least 1 even for a
zero dimension. -/
theorem claim_C9 (w h t : Nat) (ht : 0 < t) (hw : w + t ≤ U32_MOD)
    (hh : h + t ≤ U32_MOD) :
    w ≤ (tiles_dim w h t).1 * t ∧ h ≤ (tiles_dim w h t).2 * t ∧
    1 ≤ (tiles_dim w h t).1 ∧ 1 ≤ (tiles_dim w h t).2 := by
  obtain ⟨h1, h2⟩ := tiles_dim_ge ht hw hh
  refine ⟨h1, h2, ?_, ?_⟩
  · unfold tiles_dim
    dsimp only
    omega
  · unfold tiles_dim
    dsimp only
    omega

/-- C9 counterexample to the unamended claim: at width = u32::MAX and
tile_size = 32 the u32 sum wraps, tiles_x collapses to 1 and the grid no
longer covers the buffer. -/
theorem claim_C9_cex :
    (tiles_dim 4294967295 1 32).1 = 1 ∧
    (tiles_dim 4294967295 1 32).1 * 32 < 4294967295 := by decide

theorem claim_C9_witness :
    100 ≤ (tiles_dim 100 50 32).1 * 32 ∧ 50 ≤ (tiles_dim 100 50 32).2 * 32 ∧
    1 ≤ (tiles_dim 100 50 32).1 ∧ 1 ≤ (tiles_dim 100 50 32).2 :=
  claim_C9 100 50 32 (by decide) (by decide) (by decide)

/-- C10: out-of-range set_pixel (ARGB1555) and set_index (indexed) are
silent no-ops: no error is signalled and the entire surface state is
unchanged. -/
theorem claim_C10 (s : PixstageArgb1555) (p : PixstageIndexed)
    (x y v x' y' v' : Nat) (hx : s.width ≤ x ∨ s.height ≤ y)
    (hx' : p.width ≤ x' ∨ p.height ≤ y') :
    s.set_pixel x y v = s ∧ p.set_index x' y' v' = p := by
  constructor
  · unfold PixstageArgb1555.set_pixel
    rw [if_pos hx]
  · unfold PixstageIndexed.set_index
    rw [if_pos hx']

theorem claim_C10_witness :
    smallArgb.set_pixel 5 0 7 = smallArgb ∧
    smallIndexed.set_index 0 9 1 = smallIndexed :=
  claim_C10 smallArgb smallIndexed 5 0 7 0 9 1 (Or.inl (by decide))
    (Or.inr (by decide))

/-- C3: when the scan produces more than max_regions clamped fragments,
take_regions returns exactly one rectangle — the fold of Rect.union over
all fragments — which contains every fragment and is the smallest
rectangle doing so; and the per-frame render path (upload_dirty_regions)
drains with max_regions = 64. -/
theorem claim_C3 (s : DirtyTiles) (m : Nat) (hWF : s.WF)
    (hw : s.width ≠ 0) (hh : s.height ≠ 0) (hf : s.full = false)
    (hd : s.dirty_tiles ≠ 0) (hlen : m < s.drainFragments.length) :
    (s.take_regions m).2 = [s.mergedFrag] ∧
    (∀ f ∈ s.drainFragments, f.subPix s.mergedFrag) ∧
    (∀ R : Rect, (∀ f ∈ s.drainFragments, f.subPix R) → s.mergedFrag.subPix R) ∧
    (∀ p : PixstageIndexed, p.upload_dirty_regions.2 = (p.dirty.take_regions 64).2) := by
  obtain ⟨h1, h2, h3⟩ := take_regions_cap s hWF m hw hh hf hd hlen
  exact ⟨h1, h2, h3, fun p => rfl⟩

theorem claim_C3_witness :
    ((applyMarks (DirtyTiles.new 3 1 1)
        [MarkOp.point 0 0, MarkOp.point 2 0]).take_regions 1).2 =
      [(applyMarks (DirtyTiles.new 3 1 1)
        [MarkOp.point 0 0, MarkOp.point 2 0]).mergedFrag] :=
  (claim_C3 (applyMarks (DirtyTiles.new 3 1 1) [MarkOp.point 0 0, MarkOp.point 2 0]) 1
    (WF_applyMarks (WF_new (by decide) (by decide) (by decide))) (by decide)
    (by decide) (by decide) (by decide) (by decide)).1

/-- C7 (amended): a successful resize_buffer(w,h) resizes the pixel
(resp. index) buffer to exactly w*h entries with Vec::resize — the
surviving prefix of the OLD content is preserved, and only positions
beyond the old length are zero-initialized — and forces full-dirty.  (The
spec's "preserving no content — new pixels are zero-initialized" is wrong
for growth that keeps old entries: see the counterexample.) -/
theorem claim_C7 (s : PixstageArgb1555) (p : PixstageIndexed) (w h : Nat)
    (hw : 0 < w) (hh : 0 < h) :
    (∃ s', s.resize_buffer w h = Except.ok s' ∧
      s'.pixels.length = w * h ∧
      (∀ i, i < s.pixels.length → i < w * h → s'.pixels.getD i 0 = s.pixels.getD i 0) ∧
      (∀ i, s.pixels.length ≤ i → i < w * h → s'.pixels.getD i 0 = 0) ∧
      s'.dirty.full = true) ∧
    (∃ p', p.resize_buffer w h = Except.ok p' ∧
      p'.indices.length = w * h ∧
      (∀ i, i < p.indices.length → i < w * h → p'.indices.getD i 0 = p.indices.getD i 0) ∧
      (∀ i, p.indices.length ≤ i → i < w * h → p'.indices.getD i 0 = 0) ∧
      p'.dirty.full = true) := by
  constructor
  · obtain ⟨s', he, hp, _, _, hfull⟩ := argb_resize_buffer_ok s w h hw hh
    refine ⟨s', he, ?_, ?_, ?_, hfull⟩
    · rw [hp, vecResize_length]
    · intro i hi hin
      rw [hp, vecResize_getD_old _ _ _ _ _ hi hin]
    · intro i hi hin
      rw [hp, vecResize_getD_new _ _ _ _ _ hi hin]
  · obtain ⟨p', he, hpix, _, _, hfull⟩ := indexed_resize_buffer_ok p w h hw hh
    refine ⟨p', he, ?_, ?_, ?_, hfull⟩
    · rw [hpix, vecResize_length]
    · intro i hi hin
      rw [hpix, vecResize_getD_old _ _ _ _ _ hi hin]
    · intro i hi hin
      rw [hpix, vecResize_getD_new _ _ _ _ _ hi hin]

/-- C7 counterexample to the unamended claim: growing the 1 x 1 buffer
holding pixel value 5 to 2 x 1 keeps the old pixel — the resized buffer is
[5, 0], so previous content IS preserved and not every pixel is zero. -/
theorem claim_C7_cex :
    ∃ s', smallArgb.resize_buffer 2 1 = Except.ok s' ∧ s'.pixels = [5, 0] ∧
      s'.pixels.getD 0 0 = smallArgb.pixels.getD 0 0 ∧ s'.pixels.getD 0 0 ≠ 0 :=
  ⟨_, rfl, rfl, rfl, by decide⟩

theorem claim_C7_witness :
    (∃ s', smallArgb.resize_buffer 2 2 = Except.ok s' ∧
      s'.pixels.length = 2 * 2 ∧
      (∀ i, i < smallArgb.pixels.length → i < 2 * 2 →
        s'.pixels.getD i 0 = smallArgb.pixels.getD i 0) ∧
      (∀ i, smallArgb.pixels.length ≤ i → i < 2 * 2 → s'.pixels.getD i 0 = 0) ∧
      s'.dirty.full = true) ∧
    (∃ p', smallIndexed.resize_buffer 2 2 = Except.ok p' ∧
      p'.indices.length = 2 * 2 ∧
      (∀ i, i < smallIndexed.indices.length → i < 2 * 2 →
        p'.indices.getD i 0 = smallIndexed.indices.getD i 0) ∧
      (∀ i, smallIndexed.indices.length ≤ i → i < 2 * 2 →
        p'.indices.getD i 0 = 0) ∧
      p'.dirty.full = true) :=
  claim_C7 smallArgb smallIndexed 2 2 (by decide) (by decide)

/-- PixelPerfect scale expression at buffer 256 x 240, surface 768 x 720
evaluates to 3. -/
theorem scale_eval_768_256 :
    qmax ((⌊qmin (qmax (((768 : Nat) : ℚ) / ((256 : Nat) : ℚ)) 1)
      (qmax (((720 : Nat) : ℚ) / ((240 : Nat) : ℚ)) 1)⌋ : ℤ) : ℚ) 1 = 3 := by
  rw [show qmin (qmax (((768 : Nat) : ℚ) / ((256 : Nat) : ℚ)) 1)
      (qmax (((720 : Nat) : ℚ) / ((240 : Nat) : ℚ)) 1) = ((3 : ℤ) : ℚ) from by
    norm_num [qmax, qmin], Int.floor_intCast]
  norm_num [qmax]

/-- PixelPerfect scale expression at buffer 100 x 100, surface 50 x 50
evaluates to 1 (the floor of the sub-unit ratio is clamped up to 1). -/
theorem scale_eval_50_100 :
    qmax ((⌊qmin (qmax (((50 : Nat) : ℚ) / ((100 : Nat) : ℚ)) 1)
      (qmax (((50 : Nat) : ℚ) / ((100 : Nat) : ℚ)) 1)⌋ : ℤ) : ℚ) 1 = 1 := by
  rw [show qmin (qmax (((50 : Nat) : ℚ) / ((100 : Nat) : ℚ)) 1)
      (qmax (((50 : Nat) : ℚ) / ((100 : Nat) : ℚ)) 1) = ((1 : ℤ) : ℚ) from by
    norm_num [qmax, qmin], Int.floor_intCast]
  norm_num [qmax]

/-- C5 (amended): ndc_scale is scaled_extent / max(surface_extent, 1), not
clip_extent / surface_extent in general; the two agree exactly when the
scaled extent is an integer between 1 and the surface extent (so the u32
clip width loses nothing) — this theorem states that conditional
agreement, and the counterexample shows the unconditional claim fails when
the buffer is cropped (scaled extent exceeds the surface). -/
theorem claim_C5 (bw bh sw sh : Nat) (mode : ScalingMode)
    (hsw : 0 < sw) (hsh : 0 < sh) (hswU : sw ≤ U32_MAX) (hshU : sh ≤ U32_MAX)
    (hden1 : ((bw : ℚ) *
      (compute_scaling (bw, bh) (sw, sh) mode).buffer_to_surface_scale).den = 1)
    (hge1 : 1 ≤ (bw : ℚ) *
      (compute_scaling (bw, bh) (sw, sh) mode).buffer_to_surface_scale)
    (hle1 : (bw : ℚ) *
      (compute_scaling (bw, bh) (sw, sh) mode).buffer_to_surface_scale ≤ (sw : ℚ))
    (hden2 : ((bh : ℚ) *
      (compute_scaling (bw, bh) (sw, sh) mode).buffer_to_surface_scale).den = 1)
    (hge2 : 1 ≤ (bh : ℚ) *
      (compute_scaling (bw, bh) (sw, sh) mode).buffer_to_surface_scale)
    (hle2 : (bh : ℚ) *
      (compute_scaling (bw, bh) (sw, sh) mode).buffer_to_surface_scale ≤ (sh : ℚ)) :
    (compute_scaling (bw, bh) (sw, sh) mode).ndc_scale =
      (((compute_scaling (bw, bh) (sw, sh) mode).clip_rect.width : ℚ) / (sw : ℚ),
       ((compute_scaling (bw, bh) (sw, sh) mode).clip_rect.height : ℚ) / (sh : ℚ)) := by
  obtain ⟨h1, h2⟩ := compute_scaling_ndc bw bh sw sh mode hsw hsh hswU hshU
    hden1 hge1 hle1 hden2 hge2 hle2
  exact Prod.ext h1 h2

/-- C5 counterexample to the unamended claim: a 100 x 100 buffer on a
50 x 50 surface (PixelPerfect) keeps scale 1, so the buffer is cropped:
ndc_scale.1 = 100/50 = 2 while clip width / surface width = 50/50 = 1. -/
theorem claim_C5_cex :
    (compute_scaling (100, 100) (50, 50) .PixelPerfect).ndc_scale.1 = 2 ∧
    (compute_scaling (100, 100) (50, 50) .PixelPerfect).clip_rect.width = 50 ∧
    (((compute_scaling (100, 100) (50, 50) .PixelPerfect).clip_rect.width : ℚ) /
        ((50 : Nat) : ℚ) ≠
      (compute_scaling (100, 100) (50, 50) .PixelPerfect).ndc_scale.1) := by
  obtain ⟨h1, h2, h3⟩ := compute_scaling_pp_eval 100 100 50 50 1 50 50 0 0
    scale_eval_50_100
    (f32_to_u32_eval 50 _ (by norm_num [qmax, qmin]) (by decide))
    (f32_to_u32_eval 50 _ (by norm_num [qmax, qmin]) (by decide))
    (f32_to_u32_eval 0 _ (by norm_num [qmax, qmin]) (by decide))
    (f32_to_u32_eval 0 _ (by norm_num [qmax, qmin]) (by decide))
  have hn1 : (compute_scaling (100, 100) (50, 50) .PixelPerfect).ndc_scale.1 = 2 := by
    rw [h3]
    norm_num [qmax]
  have hw50 : (compute_scaling (100, 100) (50, 50) .PixelPerfect).clip_rect.width
      = 50 := by
    rw [h2]
  refine ⟨hn1, hw50, ?_⟩
  rw [hn1, hw50]
  norm_num

theorem claim_C5_witness :
    (compute_scaling (256, 240) (768, 720) .PixelPerfect).ndc_scale =
      (((compute_scaling (256, 240) (768, 720) .PixelPerfect).clip_rect.width : ℚ) /
         ((768 : Nat) : ℚ),
       ((compute_scaling (256, 240) (768, 720) .PixelPerfect).clip_rect.height : ℚ) /
         ((720 : Nat) : ℚ)) := by
  obtain ⟨hsc, -, -⟩ := compute_scaling_pp_eval 256 240 768 720 3 768 720 0 0
    scale_eval_768_256
    (f32_to_u32_eval 768 _ (by norm_num [qmax, qmin]) (by decide))
    (f32_to_u32_eval 720 _ (by norm_num [qmax, qmin]) (by decide))
    (f32_to_u32_eval 0 _ (by norm_num [qmax, qmin]) (by decide))
    (f32_to_u32_eval 0 _ (by norm_num [qmax, qmin]) (by decide))
  exact claim_C5 256 240 768 720 .PixelPerfect (by norm_num) (by norm_num)
    (by decide) (by decide)
    (by
      have h768 : ((256 : Nat) : ℚ) * 3 = ((768 : Nat) : ℚ) := by push_cast; norm_num
      rw [hsc, h768]
      exact Rat.den_natCast 768)
    (by rw [hsc]; push_cast; norm_num)
    (by rw [hsc]; push_cast; norm_num)
    (by
      have h720 : ((240 : Nat) : ℚ) * 3 = ((720 : Nat) : ℚ) := by push_cast; norm_num
      rw [hsc, h720]
      exact Rat.den_natCast 720)
    (by rw [hsc]; push_cast; norm_num)
    (by rw [hsc]; push_cast; norm_num)

/-- C6: PixelPerfect round-trip at buffer (256,240), surface (768,720):
the integer scale is 3, the clip rectangle is the whole surface
(0,0,768,720), and window_pos_to_pixel((384,360)) on a surface in that
state returns Ok((128,120)). -/
theorem claim_C6 :
    (compute_scaling (256, 240) (768, 720) .PixelPerfect).buffer_to_surface_scale
      = 3 ∧
    (compute_scaling (256, 240) (768, 720) .PixelPerfect).clip_rect
      = ⟨0, 0, 768, 720⟩ ∧
    sampleArgb.window_pos_to_pixel (384, 360) = .ok (128, 120) := by
  obtain ⟨hsc, hclip, -⟩ := compute_scaling_pp_eval 256 240 768 720 3 768 720 0 0
    scale_eval_768_256
    (f32_to_u32_eval 768 _ (by norm_num [qmax, qmin]) (by decide))
    (f32_to_u32_eval 720 _ (by norm_num [qmax, qmin]) (by decide))
    (f32_to_u32_eval 0 _ (by norm_num [qmax, qmin]) (by decide))
    (f32_to_u32_eval 0 _ (by norm_num [qmax, qmin]) (by decide))
  refine ⟨hsc, hclip, ?_⟩
  have hss : sampleArgb.scaling_state
      = compute_scaling (256, 240) (768, 720) .PixelPerfect := rfl
  unfold PixstageArgb1555.window_pos_to_pixel
  rw [hss, hclip, hsc]
  dsimp only [sampleArgb]
  norm_num [qmax, f32_min_positive]
  omega

end Pixstage
